import Mathlib

/-
  Verification development for the DebugExtraction repository
  (src/DWARFParser.py, src/Debuginfo.py).

  The Python sources are shallowly embedded below.  Object identity is
  modelled by natural-number ids; the object heap is a function
  `Nat → Tag`; mutation is explicit state passing.  Machine integers do
  not occur in the modelled code (Python integers are unbounded), so
  `Int`/`Nat` are used directly.
-/

/- ===================================================================
   Part 1: `TypeParser.Member.get_offset` (DWARFParser.py 670-694)
   =================================================================== -/

/-- The value of the `DW_AT_data_member_location` attribute as produced by
`get_die_attribute_block_or_int`: either a plain integer or a block
(list of DWARF expression bytes).  `other` stands for any value of a
different runtime type (the `else: return None` branch of `get_offset`). -/
inductive DMLVal where
  | int (n : Int)
  | block (bytes : List Int)
  | other
deriving DecidableEq

/-- Errors raised by `Member.get_offset`:
`unsupportedLocationExpression` models the
`Exception("Cannot compute member offset: Unknown exprloc operation ...")`
raise; `indexError` models a Python `IndexError` from indexing the block
past its length; `popFromEmpty` models `list.pop` on an empty stack. -/
inductive OffsetErr where
  | unsupportedLocationExpression (opcode : Int)
  | indexError
  | popFromEmpty
deriving DecidableEq

/-- `TypeParser.Member.get_offset` (DWARFParser.py 670-694).
The caller-supplied `dwarf_stack` defaults to `[0]` in the source; the top
of the Python stack is the last list element (`list.pop`).  The source also
pushes the computed byte offset back onto the stack; the pushed stack is
not observed by any caller in the repository, so only the returned pair is
modelled.  Returns `none` (Python `None`) when the location value is
neither an integer nor a block. -/
def get_offset (data_member_location : DMLVal) (data_bit_offset : Option Int)
    (dwarf_stack : List Int) : Except OffsetErr (Option (Int × Int)) :=
  match data_member_location with
  | .int n => .ok (some (n, data_bit_offset.getD 0))
  | .block bytes =>
    match bytes with
    | [] => .error .indexError
    | opcode :: rest =>
      if opcode = 0x23 then
        match dwarf_stack.getLast? with
        | none => .error .popFromEmpty
        | some stack_top =>
          match rest.head? with
          | none => .error .indexError
          | some operand => .ok (some (operand + stack_top, data_bit_offset.getD 0))
      else .error (.unsupportedLocationExpression opcode)
  | .other => .ok none

/- ===================================================================
   Part 2: `DebugInfo.Int.to_bytes` (Debuginfo.py 216-248)
   =================================================================== -/

/-- Little-endian base-256 digits of `m`, `w` bytes long; this is the
mathematical content of Python's `int.to_bytes(length=w, byteorder='little',
signed=True)` applied to the canonical representative `m` of the value
modulo `2^(8w)`. -/
def toBytesLE : Nat → Nat → List Nat
  | 0, _ => []
  | w + 1, m => m % 256 :: toBytesLE w (m / 256)

/-- `DebugInfo.Int.lower_limit` (Debuginfo.py 242-244). -/
def Int_lower_limit (datawidth : Nat) : Int := -(2 ^ (datawidth * 8 - 1))

/-- `DebugInfo.Int.upper_limit` (Debuginfo.py 246-248). -/
def Int_upper_limit (datawidth : Nat) : Int := 2 ^ (datawidth * 8 - 1) - 1

/-- `DebugInfo.Int.to_bytes` (Debuginfo.py 221-240) restricted to `None`
and integer inputs (`value is None` sets `value = 0`; the float/bool/str
coercion branches are not modelled).  Rejects (Python `ValueError`) when
the value is below `lower_limit()` or above `upper_limit()`, otherwise
defers to `int.to_bytes(datawidth, 'little', signed=True)`, whose result
is the little-endian base-256 encoding of `value mod 2^(8·datawidth)`. -/
def Int_to_bytes (datawidth : Nat) (value : Option Int) : Except Int (List Nat) :=
  let v : Int := value.getD 0
  if v < Int_lower_limit datawidth ∨ v > Int_upper_limit datawidth then
    .error v
  else
    .ok (toBytesLE datawidth (v % (2 ^ (datawidth * 8))).toNat)

/-- Value of a little-endian byte list (least significant byte first). -/
def fromBytesLE (bs : List Nat) : Nat := bs.foldr (fun b acc => b + 256 * acc) 0

/-- Two's-complement reading of a `w`-byte unsigned value. -/
def asSigned (w : Nat) (m : Nat) : Int :=
  if m < 2 ^ (w * 8 - 1) then (m : Int) else (m : Int) - 2 ^ (w * 8)

/- ===================================================================
   Part 3: entity model (`TypeParser` TAG classes)

   Entities are addressed by natural-number ids (object identity); a heap
   `Nat → Tag` gives each id its current attribute record.  The modelled
   kinds are BaseType, PointerType, StructureType, Member, SubroutineType,
   FormalParameter and TypeDefType; every kind's trait fields live in one
   record, unused fields keep their defaults.
   =================================================================== -/

inductive TagKind where
  | baseType
  | pointerType
  | structureType
  | memberTag
  | subroutineType
  | formalParameter
  | typeDefType
deriving DecidableEq

/-- One entity (`TypeParser.AbstractTAG` instance).  `hsh` is the structural
hash under which the entity is bucketed in `_TAG_class_hash_dict`; it is
stored rather than recomputed because no hash method of the modelled kinds
reads a referenced entity (`Typed.__hash__` is the constant 0), so the
mutations performed by the resolution passes never change it.  `typ` is the
`Typed` trait reference, `containing` is `containing_structure`, `spec` is
`specification`, `nsRef` is `namespace`, `elems` is the kind's child list
(`members` of a structure, `parameters` of a subroutine), `referrers` is
`_referrers` and `typedefs` is `_typedefs`. -/
structure Tag where
  kind : TagKind := .baseType
  hsh : Int := 0
  name : Option String := none
  parsed : Bool := false
  declaration : Bool := false
  size : Option Int := none
  bitSize : Option Int := none
  alignment : Option Int := none
  accessibility : Option Int := none
  artificial : Bool := false
  typ : Option Nat := none
  containing : Option Nat := none
  spec : Option Nat := none
  nsRef : Option Nat := none
  elems : List Nat := []
  referrers : List Nat := []
  typedefs : List Nat := []
  encoding : Option Int := none
  endianity : Option Int := none
  bitOffset : Option Int := none
  exportSymbols : Bool := false
  callingConv : Int := 0
  mutableFlag : Option Bool := none
  dml : DMLVal := .int 0
  dbo : Option Int := none
  prototyped : Option Bool := none
  unspecifiedParams : Bool := false
  constValue : Option Int := none
  defaultValue : Option Int := none
  isOptional : Option Bool := none
  variableParameter : Option Bool := none
deriving DecidableEq

abbrev Heap := Nat → Tag

/- ===================================================================
   Part 4: structural equality (`__eq__` of the TAG kinds)

   Python evaluation outcomes are modelled by `EqRes`: `val b` is a
   returned boolean, `exn` a raised exception, `out` an evaluation whose
   recursion depth exceeds the fuel (for every fuel: RecursionError).
   =================================================================== -/

inductive EqRes where
  | out
  | exn
  | val (b : Bool)
deriving DecidableEq

/-- Python `and` (short-circuit): a false left operand hides any exception
or divergence of the right operand. -/
def EqRes.andSC : EqRes → EqRes → EqRes
  | .out, _ => .out
  | .exn, _ => .exn
  | .val false, _ => .val false
  | .val true, r => r

/-- `all([...])` over an eagerly built list comprehension: every element is
evaluated left to right (a raise or divergence at any element propagates
even if an earlier element is already false), then the conjunction is
taken. -/
def listAll : List EqRes → EqRes
  | [] => .val true
  | .out :: _ => .out
  | .exn :: _ => .exn
  | .val b :: rs =>
    match listAll rs with
    | .out => .out
    | .exn => .exn
    | .val c => .val (b && c)

/-- `AbstractTAG.__eq__` (DWARFParser.py 369-377): raises unless both
entities are parsed, then compares names (`Named.__eq__`). -/
def abstractTagEq (a b : Tag) : EqRes :=
  if a.parsed && b.parsed then .val (decide (a.name = b.name)) else .exn

/-- Comparison of two optional entity references with `==`
(`Typed.__eq__` and the direct `specification`/`containing_structure`
comparisons): `None == None` is true, `None` against an entity is false,
two entities recurse into the kind equality. -/
def refCmp (recur : Nat → Nat → EqRes) : Option Nat → Option Nat → EqRes
  | none, none => .val true
  | none, some _ => .val false
  | some _, none => .val false
  | some i, some j => recur i j

/-- `Member.is_similar` (DWARFParser.py 700-710): the deliberately
non-recursive comparison used for aggregate members; the referenced type
contributes only its `name` attribute.  Accessing `self.type.name` when
`type` is `None` would raise `AttributeError` (`exn`); `Member.parse`
makes the type mandatory, so the raise is ordinarily unreachable. -/
def is_similar (h : Heap) (a b : Tag) : EqRes :=
  (EqRes.val (decide (a.name = b.name))).andSC <|
  (EqRes.val (decide (a.declaration = b.declaration))).andSC <|
  (EqRes.val (decide (a.size = b.size))).andSC <|
  (EqRes.val (decide (a.bitSize = b.bitSize))).andSC <|
  (match a.typ, b.typ with
   | some i, some j => EqRes.val (decide ((h i).name = (h j).name))
   | _, _ => EqRes.exn).andSC <|
  (EqRes.val (decide (a.accessibility = b.accessibility))).andSC <|
  (EqRes.val (decide (a.mutableFlag = b.mutableFlag))).andSC <|
  (EqRes.val (decide (a.dml = b.dml))).andSC <|
  (EqRes.val (decide (a.dbo = b.dbo)))

def pairwiseSimilar (h : Heap) : List Nat → List Nat → EqRes
  | [], _ => .val true
  | _ :: _, [] => .val true
  | x :: xs, y :: ys => (is_similar h (h x) (h y)).andSC (pairwiseSimilar h xs ys)

/-- `StructureUnionClassAbstractType._compare_members` (DWARFParser.py
586-592): member counts must match, then the members are pairwise
`is_similar`. -/
def compare_members (h : Heap) (xs ys : List Nat) : EqRes :=
  if xs.length = ys.length then pairwiseSimilar h xs ys else .val false

/-- Elementwise part of Python list equality (`self.parameters ==
__value.parameters` in `SubroutineType.__eq__`): identical objects compare
equal without calling `__eq__`, otherwise the kind equality recurses;
a false pair stops the loop. -/
def paramsEqAux (recur : Nat → Nat → EqRes) : List Nat → List Nat → EqRes
  | [], _ => .val true
  | _ :: _, [] => .val true
  | x :: xs, y :: ys =>
    (if x = y then EqRes.val true else recur x y).andSC (paramsEqAux recur xs ys)

/-- Python list equality: lengths are compared first (no element is
evaluated on a length mismatch). -/
def paramsEq (recur : Nat → Nat → EqRes) (xs ys : List Nat) : EqRes :=
  if xs.length = ys.length then paramsEqAux recur xs ys else .val false

/-- Fuel-indexed evaluation of the kind `__eq__` methods (BaseType 415-421,
PointerType via AbstractModifierType 907-910, StructureType 750-753 via
StructureUnionClassAbstractType 594-602, Member 713-721, SubroutineType
1414-1420, FormalParameter 1345-1354, TypeDefType 490-493).  Each kind
first evaluates the full list of base-class equalities (which always
contains `AbstractTAG.__eq__`'s parsed check first and, for `Typed` kinds,
the recursive `Typed.__eq__`), then the kind's own short-circuit
conjunction.  Differing kinds yield `False` (`NotImplemented` on both
sides falls back to identity, and distinct kinds are distinct objects).
`.out` for every fuel models a Python `RecursionError`. -/
def eqF : Nat → Heap → Nat → Nat → EqRes
  | 0, _, _, _ => .out
  | n + 1, h, i, j =>
    let a := h i
    let b := h j
    let recur := eqF n h
    if a.kind ≠ b.kind then .val false
    else
      match a.kind with
      | .baseType =>
        (listAll [abstractTagEq a b,
                  .val (decide (a.alignment = b.alignment)),
                  .val (decide (a.size = b.size ∧ a.bitSize = b.bitSize))]).andSC <|
        (EqRes.val (decide (a.encoding = b.encoding))).andSC <|
        (EqRes.val (decide (a.endianity = b.endianity))).andSC
        (EqRes.val (decide (a.bitOffset = b.bitOffset)))
      | .pointerType =>
        listAll [abstractTagEq a b,
                 refCmp recur a.typ b.typ,
                 .val (decide (a.alignment = b.alignment)),
                 .val (decide (a.size = b.size ∧ a.bitSize = b.bitSize))]
      | .typeDefType =>
        listAll [abstractTagEq a b,
                 .val (decide (a.accessibility = b.accessibility)),
                 .val (decide (a.alignment = b.alignment)),
                 .val (decide (a.declaration = b.declaration)),
                 refCmp recur a.typ b.typ,
                 .val (decide (a.name = b.name))]
      | .structureType =>
        (listAll [abstractTagEq a b,
                  .val (decide (a.accessibility = b.accessibility)),
                  .val (decide (a.alignment = b.alignment)),
                  .val (decide (a.declaration = b.declaration)),
                  .val (decide (a.size = b.size ∧ a.bitSize = b.bitSize))]).andSC <|
        (refCmp recur a.containing b.containing).andSC <|
        (compare_members h a.elems b.elems).andSC <|
        (EqRes.val (decide (a.exportSymbols = b.exportSymbols))).andSC <|
        (refCmp recur a.spec b.spec).andSC
        (EqRes.val (decide (a.callingConv = b.callingConv)))
      | .memberTag =>
        (listAll [abstractTagEq a b,
                  .val (decide (a.accessibility = b.accessibility)),
                  .val (decide (a.alignment = b.alignment)),
                  .val (decide (a.artificial = b.artificial)),
                  .val (decide (a.declaration = b.declaration)),
                  .val (decide (a.size = b.size ∧ a.bitSize = b.bitSize)),
                  refCmp recur a.typ b.typ]).andSC <|
        (refCmp recur a.containing b.containing).andSC <|
        (EqRes.val (decide (a.accessibility = b.accessibility))).andSC <|
        (EqRes.val (decide (a.mutableFlag = b.mutableFlag))).andSC <|
        (EqRes.val (decide (a.dml = b.dml))).andSC
        (EqRes.val (decide (a.dbo = b.dbo)))
      | .subroutineType =>
        (listAll [abstractTagEq a b,
                  .val (decide (a.accessibility = b.accessibility)),
                  .val (decide (a.alignment = b.alignment)),
                  .val (decide (a.declaration = b.declaration)),
                  refCmp recur a.typ b.typ]).andSC <|
        (EqRes.val (decide (a.prototyped = b.prototyped))).andSC <|
        (paramsEq recur a.elems b.elems).andSC
        (EqRes.val (decide (a.unspecifiedParams = b.unspecifiedParams)))
      | .formalParameter =>
        (listAll [abstractTagEq a b,
                  .val (decide (a.artificial = b.artificial)),
                  refCmp recur a.typ b.typ]).andSC <|
        (EqRes.val (decide (a.artificial = b.artificial))).andSC <|
        (EqRes.val (decide (a.constValue = b.constValue))).andSC <|
        (EqRes.val (decide (a.defaultValue = b.defaultValue))).andSC <|
        (EqRes.val (decide (a.endianity = b.endianity))).andSC <|
        (EqRes.val (decide (a.isOptional = b.isOptional))).andSC
        (EqRes.val (decide (a.variableParameter = b.variableParameter)))

/- ===================================================================
   Part 5: structural hash (`__hash__` of the TAG kinds)

   `__hash__` of each kind hashes a tuple of local attribute values (the
   code cited with `hashT` below); no component reads a referenced entity:
   `Typed.__hash__` contributes the constant 0 (omitted here, a constant
   component never distinguishes two tuples).  `HashVal` keeps the tuples
   of distinct kinds in distinct constructors, so equality of `HashVal`s
   refines equality of the Python hashes (two equal tuples always have
   equal Python hashes).
   =================================================================== -/

inductive HashVal where
  | baseTypeH (name : Option String) (alignment size bitSize encoding endianity bitOffset : Option Int)
  | pointerH (name : Option String) (alignment size bitSize : Option Int)
  | structH (name : Option String) (accessibility alignment : Option Int)
      (declaration : Bool) (size bitSize : Option Int)
      (exportSymbols : Bool) (callingConv : Int)
  | memberH (name : Option String) (accessibility alignment : Option Int)
      (artificial declaration : Bool) (size bitSize : Option Int)
      (mutableFlag : Option Bool) (dbo : Option Int) (dml : DMLVal)
  | subroutineH (name : Option String) (accessibility alignment : Option Int)
      (declaration : Bool) (prototyped : Option Bool) (unspecifiedParams : Bool)
  | formalParamH (name : Option String) (artificial : Bool)
      (constValue defaultValue endianity : Option Int)
      (isOptional variableParameter : Option Bool)
  | typeDefH (name : Option String) (accessibility alignment : Option Int) (declaration : Bool)
deriving DecidableEq

/-- The `__hash__` tuples: BaseType 423-425, PointerType (via
AbstractModifierType 912-913 plus Aligned/Sized), StructureType 604-607
(members, containing structure and specification are not hashed),
Member 723-728 (the referenced type is not hashed), SubroutineType
1422-1425 (parameters are not hashed), FormalParameter 1356-1359,
TypeDefType 495-496. -/
def hashT (t : Tag) : HashVal :=
  match t.kind with
  | .baseType => .baseTypeH t.name t.alignment t.size t.bitSize t.encoding t.endianity t.bitOffset
  | .pointerType => .pointerH t.name t.alignment t.size t.bitSize
  | .structureType =>
      .structH t.name t.accessibility t.alignment t.declaration t.size t.bitSize
        t.exportSymbols t.callingConv
  | .memberTag =>
      .memberH t.name t.accessibility t.alignment t.artificial t.declaration t.size t.bitSize
        t.mutableFlag t.dbo t.dml
  | .subroutineType =>
      .subroutineH t.name t.accessibility t.alignment t.declaration t.prototyped
        t.unspecifiedParams
  | .formalParameter =>
      .formalParamH t.name t.artificial t.constValue t.defaultValue t.endianity
        t.isOptional t.variableParameter
  | .typeDefType => .typeDefH t.name t.accessibility t.alignment t.declaration

/-- The references into which the kind `__eq__` methods recurse: `Typed`
references, `containing_structure` and `specification` comparisons, and
the pairwise parameter comparison of subroutines.  Aggregate member lists
are compared through `is_similar` only and are not recursion edges. -/
def recEdges (t : Tag) : List Nat :=
  match t.kind with
  | .baseType => []
  | .pointerType => t.typ.toList
  | .typeDefType => t.typ.toList
  | .formalParameter => t.typ.toList
  | .memberTag => t.typ.toList ++ t.containing.toList
  | .structureType => t.containing.toList ++ t.spec.toList
  | .subroutineType => t.typ.toList ++ t.elems

/-- The evaluation of the kind equality of `i` and `j` terminates with a
boolean (under some recursion depth). -/
def eqTerminates (h : Heap) (i j : Nat) : Prop := ∃ n b, eqF n h i j = EqRes.val b

/- ===================================================================
   Part 6: the Resolution Engine state (`TypeParser` instance state)

   `PState.table` is the insertion-ordered content of
   `_TAG_class_hash_dict` (every parsed, sorted entity id); the dict's
   two-level grouping by class and structural hash is recovered from
   `table` by filtering on the stored `kind` and `hsh` fields, which the
   engine's own mutations never change.  `PState.tags` is the object heap.
   =================================================================== -/

structure PState where
  tags : Heap
  table : List Nat

/-- Update one heap cell (assignment to an attribute of one object). -/
def setTag (h : Heap) (i : Nat) (t : Tag) : Heap :=
  fun j => if j = i then t else h j

/-- The typed-attribute names collected by `_remove_duplicates` and
`_validate_references` (DWARFParser.py 2089-2090 and 2140-2141): the union
of `TYPED_ATTR_NAMES` over the *strict base classes* of the entity's class
(`_get_baseclasses_of_class` never includes the class itself).  Single
references: `type` comes from `Typed`, `namespace` from `AbstractTAG`;
`containing_structure` and `specification` are contributed by
`StructureUnionClassAbstractType` to its concrete subclasses only.  The
attributes declared by a concrete leaf class itself — `Member.
containing_structure`, `SubroutineType.parameters`, `Variable.
specification`, `EnumerationType.enumerators` — are not collected. -/
inductive RefAttr where
  | typAttr
  | nsAttr
  | specAttr
  | containingAttr
  | elemsAttr
  | referrersAttr
  | typedefsAttr
deriving DecidableEq

/-- Of the scanned attribute names (see `RefAttr`), those whose value is a
single optional reference: `namespace` for every kind, `type` for the
`Typed` kinds, and `containing_structure`/`specification` for the
structure kinds (contributed by `StructureUnionClassAbstractType`). -/
def singleAttrs (k : TagKind) : List RefAttr :=
  match k with
  | .structureType => [.nsAttr, .containingAttr, .specAttr]
  | .baseType => [.nsAttr]
  | .pointerType => [.typAttr, .nsAttr]
  | .typeDefType => [.typAttr, .nsAttr]
  | .subroutineType => [.typAttr, .nsAttr]
  | .formalParameter => [.typAttr, .nsAttr]
  | .memberTag => [.typAttr, .nsAttr]

/-- Of the scanned attribute names, those whose value is a list of
references (`_typedefs` and `_referrers` from `AbstractTAG` for every
kind; `members` from `StructureUnionClassAbstractType` for the structure
kinds). -/
def listAttrs (k : TagKind) : List RefAttr :=
  match k with
  | .structureType => [.typedefsAttr, .referrersAttr, .elemsAttr]
  | _ => [.typedefsAttr, .referrersAttr]

def getSingle (t : Tag) : RefAttr → Option Nat
  | .typAttr => t.typ
  | .nsAttr => t.nsRef
  | .specAttr => t.spec
  | .containingAttr => t.containing
  | _ => none

def setSingle (t : Tag) : RefAttr → Option Nat → Tag
  | .typAttr, v => { t with typ := v }
  | .nsAttr, v => { t with nsRef := v }
  | .specAttr, v => { t with spec := v }
  | .containingAttr, v => { t with containing := v }
  | _, _ => t

def getListAttr (t : Tag) : RefAttr → List Nat
  | .elemsAttr => t.elems
  | .referrersAttr => t.referrers
  | .typedefsAttr => t.typedefs
  | _ => []

def setListAttr (t : Tag) : RefAttr → List Nat → Tag
  | .elemsAttr, v => { t with elems := v }
  | .referrersAttr, v => { t with referrers := v }
  | .typedefsAttr, v => { t with typedefs := v }
  | _, _ => t

/-- The duplicates dictionary of `_get_duplicates`: association list from
the original (first entity of its bucket equal to the others) to its
duplicates, in insertion order. -/
abbrev Dups := List (Nat × List Nat)

/-- The keys of a Python dict in insertion order (first occurrence). -/
def keysInOrder {α : Type} [DecidableEq α] (l : List α) : List α :=
  l.foldl (fun acc x => if x ∈ acc then acc else acc ++ [x]) []

/-- The entities of class `k` in `_TAG_class_hash_dict` order within the
class dict. -/
def tagsOfKind (s : PState) (k : TagKind) : List Nat :=
  s.table.filter (fun i => (s.tags i).kind = k)

/-- The bucket `_TAG_class_hash_dict[k][hv]`. -/
def bucketOf (s : PState) (k : TagKind) (hv : Int) : List Nat :=
  (tagsOfKind s k).filter (fun i => (s.tags i).hsh = hv)

/-- The buckets of class `k` in dict insertion order (a bucket is created
when the first entity with its hash is added). -/
def bucketsOfKind (s : PState) (k : TagKind) : List (List Nat) :=
  (keysInOrder ((tagsOfKind s k).map (fun i => (s.tags i).hsh))).map (bucketOf s k)

/-- The class keys of `_TAG_class_hash_dict` in insertion order. -/
def kindsInOrder (s : PState) : List TagKind :=
  keysInOrder (s.table.map (fun i => (s.tags i).kind))

/-- Iteration order of `get_tags` / the two-level dict (class by class,
bucket by bucket). -/
def bucketedTags (s : PState) : List Nat :=
  (kindsInOrder s).flatMap (fun k => (bucketsOfKind s k).flatMap id)

/-- Append a duplicate under its original (Python
`class_duplicates[original].append(tag)`, creating the key at the end on
first use). -/
def addDup : Dups → Nat → Nat → Dups
  | [], u, t => [(u, [t])]
  | (k, l) :: rest, u, t =>
    if k = u then (k, l ++ [t]) :: rest else (k, l) :: addDup rest u t

/-- One step of the `for tag in tag_by_hash_list` loop of `_get_duplicates`
(DWARFParser.py 2060-2068): Python `in`/`index` on `hash_uniques` test
identity first and `==` second; distinct ids are distinct objects, so the
identity test only matters for ids, and equality is the caller-supplied
kind equality `eqId`. -/
def bucketDupStep (eqId : Nat → Nat → Bool) (acc : List Nat × Dups) (t : Nat) :
    List Nat × Dups :=
  match acc.1.find? (fun u => u = t || eqId u t) with
  | none => (acc.1 ++ [t], acc.2)
  | some u => (acc.1, addDup acc.2 u t)

/-- `_get_duplicates` (DWARFParser.py 2049-2076): per class, per bucket,
accumulate `hash_uniques` and the duplicates dictionary; the per-class
dictionaries are merged in iteration order.  The kind `__eq__` comparison
is passed in as `eqFn` (a heap-dependent boolean predicate: the engine
works with whatever the kind equality computes). -/
def dupPortion (eqFn : Heap → Nat → Nat → Bool) (s : PState) (k : TagKind) : Dups :=
  (bucketsOfKind s k).foldl
    (fun (dacc : Dups) bucket =>
      (bucket.foldl (bucketDupStep (eqFn s.tags)) ([], dacc)).2)
    []

def getDuplicatesWith (eqFn : Heap → Nat → Nat → Bool) (s : PState) : Dups :=
  (kindsInOrder s).flatMap (dupPortion eqFn s)

/-- The duplicate ids of a duplicates dictionary, in removal-loop order
(`for duplicate_list in duplicates.values(): for duplicate in ...`). -/
def allDups (dups : Dups) : List Nat := dups.flatMap (fun p => p.2)

/-- The original of `v`'s bucket when `v` is a recorded duplicate. -/
def dupOriginal (dups : Dups) (v : Nat) : Option Nat :=
  (dups.find? (fun p => v ∈ p.2)).map Prod.fst

/-- Rewrite of one reference by the scan loop of `_remove_duplicates`
(2109-2119): an occurrence of a duplicate becomes its bucket's original;
anything else is untouched. -/
def rewriteVal (dups : Dups) (v : Nat) : Nat :=
  (dupOriginal dups v).getD v

/-- Rewrite of every scanned typed attribute of one entity
(`for attr_name in typed_attr_names` at 2092-2119). -/
def rewriteTag (dups : Dups) (t : Tag) : Tag :=
  let t1 := (singleAttrs t.kind).foldl
    (fun acc a => setSingle acc a ((getSingle acc a).map (rewriteVal dups))) t
  (listAttrs t1.kind).foldl
    (fun acc a => setListAttr acc a ((getListAttr acc a).map (rewriteVal dups))) t1

/-- The scan phase of `_remove_duplicates` (2085-2119): every entity of the
canonical table has its scanned typed attributes rewritten. -/
def scanPhase (s : PState) (dups : Dups) : PState :=
  { s with tags := fun i => if i ∈ s.table then rewriteTag dups (s.tags i) else s.tags i }

/-- Remove every occurrence of `d` from a referrer/typedef list
(`remove_referrer` / `unregister_typedef`, identity-based). -/
def removeAllOcc (l : List Nat) (d : Nat) : List Nat := l.filter (fun x => x ≠ d)

/-- Kinds composing the `Typed` trait (`isinstance(self, TypeParser.Typed)`). -/
def kindHasTyp : TagKind → Bool
  | .baseType => false
  | .structureType => false
  | _ => true

/-- Kinds composing the `Declarable` trait. -/
def kindIsDeclarable : TagKind → Bool
  | .memberTag => true
  | .typeDefType => true
  | .structureType => true
  | .subroutineType => true
  | _ => false

/-- One iteration of the referrer-redirect loop of `AbstractTAG.deinit`
(DWARFParser.py 296-300): if the referrer still references `d` through its
`type` field, the field is rewritten to `repl` and the referrer is
registered with `repl`. -/
def redirectStep (d repl : Nat) (h : Heap) (ref : Nat) : Heap :=
  if (h ref).typ = some d then
    let h1 := setTag h ref { h ref with typ := some repl }
    setTag h1 repl { h1 repl with referrers := (h1 repl).referrers ++ [ref] }
  else h

/-- `AbstractTAG.deinit` (294-303) together with the `TypeDefType.deinit`
override (486-488): redirect the registered referrers that still reference
`d`, unregister `d` from its own type's referrer list and, for a typedef,
from its type's typedef list. -/
def deinit (h : Heap) (d : Nat) (repl : Option Nat) : Heap :=
  let h1 := match repl with
    | some r => (h d).referrers.foldl (redirectStep d r) h
    | none => h
  let h2 :=
    if kindHasTyp (h1 d).kind then
      match (h1 d).typ with
      | some x => setTag h1 x { h1 x with referrers := removeAllOcc (h1 x).referrers d }
      | none => h1
    else h1
  if (h2 d).kind = .typeDefType then
    match (h2 d).typ with
    | some x => setTag h2 x { h2 x with typedefs := removeAllOcc (h2 x).typedefs d }
    | none => h2
  else h2

/-- `_remove_TAG_exact` (2213-2239): drop every table occurrence of the
entity, then deinitialize it with the given replacement. -/
def removeTagExact (s : PState) (d : Nat) (repl : Option Nat) : PState :=
  { tags := deinit s.tags d repl, table := s.table.filter (fun x => x ≠ d) }

/-- `resort_TAG` (2241-2245): remove without deinit, then re-add (the
entity moves to the end of the insertion order, under its current hash). -/
def resortTag (s : PState) (c : Nat) : PState :=
  { s with table := s.table.filter (fun x => x ≠ c) ++ [c] }

/-- The removal loop of `_remove_duplicates` (2121-2124).  The `original`
passed as replacement is the one left over from the scan loop: the loop
variable of `for original, duplicate_list in duplicates.items()` leaks out
of the scan, so every duplicate is deinitialized with the *last* original
of the dictionary, not its own bucket's. -/
def removePhase (s : PState) (dups : Dups) : PState :=
  let lastOriginal := (dups.map Prod.fst).getLast?
  (allDups dups).foldl (fun st d => removeTagExact st d lastOriginal) s

/-- One pass of `_remove_duplicates` before its tail recursion: scan and
rewrite every entity, then remove every duplicate. -/
def removeDuplicatesOnce (s : PState) (dups : Dups) : PState :=
  removePhase (scanPhase s dups) dups

/-- `_remove_duplicates` (2078-2131): rewrite and remove the given
duplicates, recompute `_get_duplicates`, and repeat until none remain.
Each pass with a non-empty dictionary removes at least one table entry, so
`fuel > |table|` makes the fuel bound unreachable. -/
def removeDuplicates (eqFn : Heap → Nat → Nat → Bool) : Nat → PState → Dups → PState
  | 0, s, _ => s
  | fuel + 1, s, dups =>
    let s1 := removeDuplicatesOnce s dups
    let dups1 := getDuplicatesWith eqFn s1
    if dups1.isEmpty then s1 else removeDuplicates eqFn fuel s1 dups1

/-- `_is_tag_in_tag_list` (2161-2168): look in the bucket of the entity's
class and current hash for an identical entity. -/
def is_tag_in_tag_list (s : PState) (v : Nat) : Bool :=
  (bucketOf s (s.tags v).kind (s.tags v).hsh).any (fun c => c = v)

/-- `_validate_references` (2133-2159): for every entity of the canonical
table, every scanned single typed attribute and every element of every
scanned reference list must be present in the table; failures are
collected as `(entity, attribute, optional index)`. -/
def validate_references (s : PState) : List (Nat × RefAttr × Option Nat) :=
  (bucketedTags s).flatMap (fun t =>
    ((singleAttrs (s.tags t).kind).flatMap (fun a =>
      match getSingle (s.tags t) a with
      | none => []
      | some v => if is_tag_in_tag_list s v then [] else [(t, a, none)])) ++
    ((listAttrs (s.tags t).kind).flatMap (fun a =>
      ((getListAttr (s.tags t) a).zip (List.range (getListAttr (s.tags t) a).length)).filterMap
        (fun p => if is_tag_in_tag_list s p.1 then none else some (t, a, some p.2)))))

/-- `Declarable.update_from` (DWARFParser.py 170-181): copy onto `c` every
attribute that is unset (`None`) on `c` and set on `d`; when the `Typed`
reference was among the copied attributes, register `c` as a referrer of
the copied type. -/
def updateFrom (h : Heap) (c d : Nat) : Heap :=
  let ct := h c
  let dt := h d
  let copiedTyp := ct.typ.isNone && dt.typ.isSome
  let ct1 : Tag := { ct with
    name := if ct.name.isNone then dt.name else ct.name,
    size := if ct.size.isNone then dt.size else ct.size,
    bitSize := if ct.bitSize.isNone then dt.bitSize else ct.bitSize,
    alignment := if ct.alignment.isNone then dt.alignment else ct.alignment,
    accessibility := if ct.accessibility.isNone then dt.accessibility else ct.accessibility,
    typ := if ct.typ.isNone then dt.typ else ct.typ,
    containing := if ct.containing.isNone then dt.containing else ct.containing,
    spec := if ct.spec.isNone then dt.spec else ct.spec,
    nsRef := if ct.nsRef.isNone then dt.nsRef else ct.nsRef,
    encoding := if ct.encoding.isNone then dt.encoding else ct.encoding,
    endianity := if ct.endianity.isNone then dt.endianity else ct.endianity,
    bitOffset := if ct.bitOffset.isNone then dt.bitOffset else ct.bitOffset,
    mutableFlag := if ct.mutableFlag.isNone then dt.mutableFlag else ct.mutableFlag,
    dbo := if ct.dbo.isNone then dt.dbo else ct.dbo,
    prototyped := if ct.prototyped.isNone then dt.prototyped else ct.prototyped,
    constValue := if ct.constValue.isNone then dt.constValue else ct.constValue,
    defaultValue := if ct.defaultValue.isNone then dt.defaultValue else ct.defaultValue,
    isOptional := if ct.isOptional.isNone then dt.isOptional else ct.isOptional,
    variableParameter := if ct.variableParameter.isNone then dt.variableParameter
      else ct.variableParameter }
  let h1 := setTag h c ct1
  if kindHasTyp ct.kind && copiedTyp then
    match dt.typ with
    | some x => setTag h1 x { h1 x with referrers := (h1 x).referrers ++ [c] }
    | none => h1
  else h1

/-- The completion candidates of a named declaration (`_complete_declaration`
2032-2037): same class, not themselves declarations, named, same name. -/
def completionCandidates (s : PState) (d : Nat) : List Nat :=
  match (s.tags d).name with
  | none => []
  | some n =>
    ((bucketsOfKind s (s.tags d).kind).flatMap id).filter
      (fun t => ¬(s.tags t).declaration ∧ (s.tags t).name = some n)

/-- The per-declaration body of `_complete_declaration` (2025-2046):
anonymous declarations stay uncompleted; with at least one candidate,
every candidate is updated from the declaration and re-sorted, then the
declaration is removed with the first candidate as replacement.  The
returned boolean reports completion. -/
def processDecl (s : PState) (d : Nat) : PState × Bool :=
  match (s.tags d).name with
  | none => (s, false)
  | some _ =>
    let cs := completionCandidates s d
    if cs.isEmpty then (s, false)
    else
      let s1 := cs.foldl (fun st c => resortTag { st with tags := updateFrom st.tags c d } c) s
      (removeTagExact s1 d cs.head?, true)

/-- `_complete_declaration` (2020-2047): process every declaration-flagged
`Declarable` entity of the table in iteration order, collecting the
completed and uncompleted ones. -/
def complete_declaration (s : PState) : PState × List Nat × List Nat :=
  let decls := (bucketedTags s).filter
    (fun t => kindIsDeclarable (s.tags t).kind ∧ (s.tags t).declaration)
  decls.foldl
    (fun acc d =>
      let (st1, ok) := processDecl acc.1 d
      if ok then (st1, acc.2.1 ++ [d], acc.2.2) else (st1, acc.2.1, acc.2.2 ++ [d]))
    (s, [], [])

/- ===================================================================
   Part 8: `parse_DIE` (DWARFParser.py 2247-2295) — memoized DIE parsing
   =================================================================== -/

/-- A debug-information entry of the input file: its tag kind and name,
its `DW_AT_type` reference (as the offset of the referenced entry) and
its member children (as offsets).  A single compile unit is modelled, so
the memo key `(die.cu, die.offset)` reduces to the offset. -/
structure DieRec where
  dkind : TagKind := .baseType
  dname : Option String := none
  typeRef : Option Nat := none
  children : List Nat := []

/-- The debug-information section: a record per offset. -/
abbrev Dwarf := Nat → DieRec

/-- Parser state of `parse_DIE`: the `_TAG_CU_offset_dict` memo table in
insertion order, the object heap, and the next fresh object id. -/
structure ParseSt where
  memo : List (Nat × Nat) := []
  heap : Heap
  next : Nat

/-- Memo lookup (`die.offset in TAG_offset_dict`, 2252-2253). -/
def lookupMemo (memo : List (Nat × Nat)) (off : Nat) : Option Nat :=
  (memo.find? (fun p => p.1 = off)).map (fun p => p.2)

/-- Sequential parsing of a list of child records (the member list
comprehension of `StructureUnionClassAbstractType.parse`, 553-555). -/
def parseList (f : ParseSt → Nat → Option (ParseSt × Nat)) :
    ParseSt → List Nat → Option (ParseSt × List Nat)
  | st, [] => some (st, [])
  | st, c :: cs =>
    match f st c with
    | none => none
    | some (st1, t) =>
      match parseList f st1 cs with
      | none => none
      | some (st2, ts) => some (st2, t :: ts)

/-- `parse_DIE` (2247-2295): a memo hit returns the memoized entity with
the state unchanged (2252-2253); otherwise a fresh entity is created and
registered in the memo *before* its fields are parsed (2262-2263), then
the fields are parsed — `Typed.parse` (241-244) resolves `DW_AT_type`
through a recursive `parse_DIE` and registers the referrer, and a
structure parses its member children recursively (553-555) — and the
entity is finally marked parsed (`parse_complete`).  The fuel models
Python's recursion limit: `none` is a `RecursionError`. -/
def parse_DIE (dw : Dwarf) : Nat → ParseSt → Nat → Option (ParseSt × Nat)
  | 0 => fun _ _ => none
  | fuel + 1 => fun st off =>
    match lookupMemo st.memo off with
    | some t => some (st, t)
    | none =>
      let d := dw off
      let t := st.next
      let st1 : ParseSt :=
        { memo := st.memo ++ [(off, t)],
          heap := setTag st.heap t { kind := d.dkind, name := d.dname },
          next := st.next + 1 }
      let stTy : Option ParseSt :=
        if kindHasTyp d.dkind then
          match d.typeRef with
          | none => some st1
          | some r =>
            match parse_DIE dw fuel st1 r with
            | none => none
            | some (st2, rt) =>
              let h1 := setTag st2.heap t { st2.heap t with typ := some rt }
              let h2 := setTag h1 rt
                { h1 rt with referrers := (h1 rt).referrers ++ [t] }
              some { st2 with heap := h2 }
        else some st1
      match stTy with
      | none => none
      | some st3 =>
        match
          (if d.dkind = TagKind.structureType then
            match parseList (parse_DIE dw fuel) st3 d.children with
            | none => none
            | some (st4, ms) =>
              some { st4 with heap := setTag st4.heap t { st4.heap t with elems := ms } }
          else some st3) with
        | none => none
        | some st5 =>
          some ({ st5 with heap := setTag st5.heap t { st5.heap t with parsed := true } }, t)

/-- A self-referential aggregate: a structure (offset 0) with one member
(offset 1) whose type is a pointer (offset 2) back to the structure. -/
def selfRefDwarf : Dwarf := fun off =>
  match off with
  | 0 => { dkind := .structureType, dname := some "s", children := [1] }
  | 1 => { dkind := .memberTag, dname := some "m", typeRef := some 2 }
  | 2 => { dkind := .pointerType, typeRef := some 0 }
  | _ => {}

/-- The parser state before any record is parsed. -/
def emptyParseSt : ParseSt := { memo := [], heap := fun _ => {}, next := 0 }

/-- A named structure declaration (id 1) with one same-named non-declaration
candidate (id 2) and one referrer (id 3, a pointer whose type is the
declaration). -/
def declTags : Heap := fun i =>
  match i with
  | 1 => { kind := .structureType, hsh := 5, parsed := true, name := some "s",
           declaration := true, size := some 8, referrers := [3] }
  | 2 => { kind := .structureType, hsh := 6, parsed := true, name := some "s" }
  | 3 => { kind := .pointerType, hsh := 7, parsed := true, typ := some 1 }
  | _ => {}

/-- The table holding the declaration, its candidate and its referrer. -/
def declState : PState := { tags := declTags, table := [1, 2, 3] }

/-- Heap used as a witness for `unparsed_eq_raises`: id 0 is a parsed base
type, id 1 an unparsed one. -/
def unparsedHeap : Heap := fun i =>
  if i = 0 then { kind := .baseType, parsed := true, size := some 4 }
  else { kind := .baseType, parsed := false, size := some 4 }

/-- A heap with two distinct pointer entities, each of which is its own
`Typed` target: a reference cycle that never passes through an aggregate
member list. -/
def ptrCycleHeap : Heap := fun i =>
  if i = 0 then { kind := .pointerType, parsed := true, typ := some 0, size := some 8 }
  else if i = 1 then { kind := .pointerType, parsed := true, typ := some 1, size := some 8 }
  else { parsed := true }

/-- Self-referential aggregate: ids 0 and 3 are two copies of a structure
whose single member (ids 1, 4) has a pointer type (ids 2, 5) pointing back
to the owning structure. -/
def selfRefHeap : Heap := fun i =>
  match i with
  | 0 => { kind := .structureType, parsed := true, name := some "StructA", size := some 8, elems := [1] }
  | 1 => { kind := .memberTag, parsed := true, name := some "next", typ := some 2, containing := some 0 }
  | 2 => { kind := .pointerType, parsed := true, typ := some 0, size := some 8 }
  | 3 => { kind := .structureType, parsed := true, name := some "StructA", size := some 8, elems := [4] }
  | 4 => { kind := .memberTag, parsed := true, name := some "next", typ := some 5, containing := some 3 }
  | 5 => { kind := .pointerType, parsed := true, typ := some 3, size := some 8 }
  | _ => { parsed := true }

/-- A rank that decreases along every equality-recursion edge of
`selfRefHeap`: the member-list edge from a structure to its members is not
a recursion edge, so the cycle structure→member→pointer→structure does not
constrain the rank. -/
def selfRefRank : Nat → Nat := fun i =>
  match i with
  | 0 => 0
  | 3 => 0
  | 2 => 1
  | 5 => 1
  | _ => 2

/-- Two structurally equal aggregates built from distinct ids (0 and 1),
with pairwise-similar members and a shared base type. -/
def hashEqHeap : Heap := fun i =>
  match i with
  | 0 => { kind := .structureType, parsed := true, name := some "Pair", size := some 8, elems := [2, 3] }
  | 1 => { kind := .structureType, parsed := true, name := some "Pair", size := some 8, elems := [4, 5] }
  | 2 => { kind := .memberTag, parsed := true, name := some "x", typ := some 6, dml := .int 0 }
  | 3 => { kind := .memberTag, parsed := true, name := some "y", typ := some 6, dml := .int 4 }
  | 4 => { kind := .memberTag, parsed := true, name := some "x", typ := some 6, dml := .int 0 }
  | 5 => { kind := .memberTag, parsed := true, name := some "y", typ := some 6, dml := .int 4 }
  | 6 => { kind := .baseType, parsed := true, name := some "int32", size := some 4 }
  | _ => { parsed := true }

/-- A comparison by name only, used to instantiate the quantified kind
equality of the engine theorems on concrete states. -/
def eqByName : Heap → Nat → Nat → Bool := fun h i j => decide ((h i).name = (h j).name)

/-- Two base types parsed from distinct records with identical content
(same name, size, hash): a canonical table holding one duplicate pair. -/
def dupState : PState :=
  { tags := fun i =>
      match i with
      | 0 => { kind := .baseType, hsh := 5, parsed := true, name := some "int", size := some 4 }
      | 1 => { kind := .baseType, hsh := 5, parsed := true, name := some "int", size := some 4 }
      | _ => {},
    table := [0, 1] }

/-- Well-formedness of one entity relative to a table `T` and a set of
removed ids `D`: every scanned typed reference survives (is in `T` and not
among `D`). -/
def GoodRef (T D : List Nat) (v : Nat) : Prop := v ∈ T ∧ v ∉ D

def GoodTag (T D : List Nat) (t : Tag) : Prop :=
  (∀ a ∈ singleAttrs t.kind, ∀ v, getSingle t a = some v → GoodRef T D v) ∧
  (∀ a ∈ listAttrs t.kind, ∀ v ∈ getListAttr t a, GoodRef T D v)

def GoodHeap (T D : List Nat) (h : Heap) : Prop := ∀ x ∈ T, GoodTag T D (h x)

/-- Boolean well-formedness of an engine state: every scanned typed
attribute of every table entity references a table entity.  This is the
state `_post_parse` hands to `_remove_duplicates` after materialization
and declaration completion. -/
def closedState (s : PState) : Bool :=
  s.table.all (fun t =>
    ((singleAttrs (s.tags t).kind).all (fun a =>
      match getSingle (s.tags t) a with
      | none => true
      | some v => decide (v ∈ s.table))) &&
    ((listAttrs (s.tags t).kind).all (fun a =>
      (getListAttr (s.tags t) a).all (fun v => decide (v ∈ s.table)))))

/-- A subroutine whose parameter list references a formal parameter (id 12)
that is a structural duplicate of another (id 11): ids 10 and 14 are
subroutines in distinct hash buckets, 13 is the shared parameter type. -/
def paramDupState : PState :=
  { tags := fun i =>
      match i with
      | 10 => { kind := .subroutineType, hsh := 0, parsed := true, name := some "f",
                elems := [11] }
      | 11 => { kind := .formalParameter, hsh := 1, parsed := true, typ := some 13 }
      | 12 => { kind := .formalParameter, hsh := 1, parsed := true, typ := some 13 }
      | 13 => { kind := .baseType, hsh := 2, parsed := true, name := some "int",
                size := some 4, referrers := [11, 12] }
      | 14 => { kind := .subroutineType, hsh := 3, parsed := true, name := some "g",
                elems := [12] }
      | _ => {},
    table := [10, 11, 12, 13, 14] }

/- ===================================================================
   Theorems
   =================================================================== -/

theorem toBytesLE_length (w m : Nat) : (toBytesLE w m).length = w := by
  induction w generalizing m with
  | zero => rfl
  | succ w ih => simp [toBytesLE, ih]

theorem fromBytesLE_toBytesLE (w m : Nat) :
    fromBytesLE (toBytesLE w m) = m % 256 ^ w := by
  induction w generalizing m with
  | zero => simp [toBytesLE, fromBytesLE, Nat.mod_one]
  | succ w ih =>
    simp only [toBytesLE, fromBytesLE, List.foldr] at *
    rw [ih (m / 256)]
    rw [pow_succ, mul_comm (256 ^ w) 256, Nat.mod_mul]

theorem andSC_val_true {a b : EqRes} (hab : a.andSC b = .val true) :
    a = .val true ∧ b = .val true := by
  cases a with
  | out => simp [EqRes.andSC] at hab
  | exn => simp [EqRes.andSC] at hab
  | val v =>
    cases v with
    | false => simp [EqRes.andSC] at hab
    | true => exact ⟨rfl, hab⟩

theorem listAll_val_true {l : List EqRes} (hl : listAll l = .val true) :
    ∀ r ∈ l, r = .val true := by
  induction l with
  | nil => intro r hr; cases hr
  | cons x xs ih =>
    intro r hr
    cases x with
    | out => simp [listAll] at hl
    | exn => simp [listAll] at hl
    | val b =>
      simp only [listAll] at hl
      rcases hx : listAll xs with _ | _ | c <;> rw [hx] at hl
      · cases hl
      · cases hl
      · have hbc : (b && c) = true := by injection hl
        have hb : b = true := ((Bool.and_eq_true b c).mp hbc).1
        have hc : c = true := ((Bool.and_eq_true b c).mp hbc).2
        rcases List.mem_cons.mp hr with rfl | hr2
        · rw [hb]
        · exact ih (by rw [hx, hc]) r hr2

theorem listAll_cons_val_true {r : EqRes} {l : List EqRes}
    (hl : listAll (r :: l) = .val true) : r = .val true ∧ listAll l = .val true := by
  cases r with
  | out => simp [listAll] at hl
  | exn => simp [listAll] at hl
  | val b =>
    simp only [listAll] at hl
    rcases hx : listAll l with _ | _ | c <;> rw [hx] at hl
    · cases hl
    · cases hl
    · have hbc : (b && c) = true := by injection hl
      have hb : b = true := ((Bool.and_eq_true b c).mp hbc).1
      have hc : c = true := ((Bool.and_eq_true b c).mp hbc).2
      exact ⟨by rw [hb], by rw [hc]⟩

theorem val_decide_true {P : Prop} [Decidable P] (hv : EqRes.val (decide P) = .val true) : P := by
  injection hv with hv2
  exact of_decide_eq_true hv2

theorem abstractTagEq_val_true {a b : Tag} (hab : abstractTagEq a b = .val true) :
    a.name = b.name := by
  unfold abstractTagEq at hab
  split at hab
  · exact val_decide_true hab
  · cases hab

/-- C4: for every two fully parsed entities A and B of the same kind, if A
equals B under the kind's structural equality then hash(A) equals hash(B)
(the hash is a coarse but valid equality witness); moreover the hash
contribution of a points-to-another-entity field is a constant: the hash
never depends on the `Typed` reference, hence never recurses into the
pointee. -/
theorem eq_implies_hash_eq :
    (∀ (n : Nat) (h : Heap) (i j : Nat),
        eqF n h i j = EqRes.val true → hashT (h i) = hashT (h j)) ∧
    (∀ (t : Tag) (x : Option Nat), hashT { t with typ := x } = hashT t) := by
  constructor
  · intro n h i j heq
    cases n with
    | zero => simp [eqF] at heq
    | succ n =>
      simp only [eqF] at heq
      by_cases hk : (h i).kind = (h j).kind
      · rw [if_neg (by simp [hk])] at heq
        cases hkind : (h i).kind <;> simp only [hkind] at heq <;>
          simp only [hashT, hkind, hk.symm.trans hkind]
        case pos.baseType =>
          obtain ⟨h1, h2⟩ := andSC_val_true heq
          obtain ⟨e1, h1b⟩ := listAll_cons_val_true h1
          obtain ⟨e2, h1c⟩ := listAll_cons_val_true h1b
          obtain ⟨e3, -⟩ := listAll_cons_val_true h1c
          obtain ⟨h3, h4⟩ := andSC_val_true h2
          obtain ⟨h5, h6⟩ := andSC_val_true h4
          rw [abstractTagEq_val_true e1, val_decide_true e2, (val_decide_true e3).1,
            (val_decide_true e3).2, val_decide_true h3, val_decide_true h5, val_decide_true h6]
        case pos.pointerType =>
          obtain ⟨e1, h1b⟩ := listAll_cons_val_true heq
          obtain ⟨-, h1c⟩ := listAll_cons_val_true h1b
          obtain ⟨e2, h1d⟩ := listAll_cons_val_true h1c
          obtain ⟨e3, -⟩ := listAll_cons_val_true h1d
          rw [abstractTagEq_val_true e1, val_decide_true e2, (val_decide_true e3).1,
            (val_decide_true e3).2]
        case pos.structureType =>
          obtain ⟨h1, h2⟩ := andSC_val_true heq
          obtain ⟨e1, h1b⟩ := listAll_cons_val_true h1
          obtain ⟨e2, h1c⟩ := listAll_cons_val_true h1b
          obtain ⟨e3, h1d⟩ := listAll_cons_val_true h1c
          obtain ⟨e4, h1e⟩ := listAll_cons_val_true h1d
          obtain ⟨e5, -⟩ := listAll_cons_val_true h1e
          obtain ⟨-, h4⟩ := andSC_val_true h2
          obtain ⟨-, h6⟩ := andSC_val_true h4
          obtain ⟨h7, h8⟩ := andSC_val_true h6
          obtain ⟨-, h10⟩ := andSC_val_true h8
          rw [abstractTagEq_val_true e1, val_decide_true e2, val_decide_true e3,
            val_decide_true e4, (val_decide_true e5).1, (val_decide_true e5).2,
            val_decide_true h7, val_decide_true h10]
        case pos.memberTag =>
          obtain ⟨h1, h2⟩ := andSC_val_true heq
          obtain ⟨e1, h1b⟩ := listAll_cons_val_true h1
          obtain ⟨e2, h1c⟩ := listAll_cons_val_true h1b
          obtain ⟨e3, h1d⟩ := listAll_cons_val_true h1c
          obtain ⟨e4, h1e⟩ := listAll_cons_val_true h1d
          obtain ⟨e5, h1f⟩ := listAll_cons_val_true h1e
          obtain ⟨e6, -⟩ := listAll_cons_val_true h1f
          obtain ⟨-, h4⟩ := andSC_val_true h2
          obtain ⟨-, h6⟩ := andSC_val_true h4
          obtain ⟨h7, h8⟩ := andSC_val_true h6
          obtain ⟨h9, h10⟩ := andSC_val_true h8
          rw [abstractTagEq_val_true e1, val_decide_true e2, val_decide_true e3,
            val_decide_true e4, val_decide_true e5, (val_decide_true e6).1,
            (val_decide_true e6).2, val_decide_true h7, val_decide_true h9,
            val_decide_true h10]
        case pos.subroutineType =>
          obtain ⟨h1, h2⟩ := andSC_val_true heq
          obtain ⟨e1, h1b⟩ := listAll_cons_val_true h1
          obtain ⟨e2, h1c⟩ := listAll_cons_val_true h1b
          obtain ⟨e3, h1d⟩ := listAll_cons_val_true h1c
          obtain ⟨e4, -⟩ := listAll_cons_val_true h1d
          obtain ⟨h3, h4⟩ := andSC_val_true h2
          obtain ⟨-, h6⟩ := andSC_val_true h4
          rw [abstractTagEq_val_true e1, val_decide_true e2, val_decide_true e3,
            val_decide_true e4, val_decide_true h3, val_decide_true h6]
        case pos.formalParameter =>
          obtain ⟨h1, h2⟩ := andSC_val_true heq
          obtain ⟨e1, h1b⟩ := listAll_cons_val_true h1
          obtain ⟨e2, -⟩ := listAll_cons_val_true h1b
          obtain ⟨-, h4⟩ := andSC_val_true h2
          obtain ⟨h5, h6⟩ := andSC_val_true h4
          obtain ⟨h7, h8⟩ := andSC_val_true h6
          obtain ⟨h9, h10⟩ := andSC_val_true h8
          obtain ⟨h11, h12⟩ := andSC_val_true h10
          rw [abstractTagEq_val_true e1, val_decide_true e2, val_decide_true h5,
            val_decide_true h7, val_decide_true h9, val_decide_true h11, val_decide_true h12]
        case pos.typeDefType =>
          obtain ⟨e1, h1b⟩ := listAll_cons_val_true heq
          obtain ⟨e2, h1c⟩ := listAll_cons_val_true h1b
          obtain ⟨e3, h1d⟩ := listAll_cons_val_true h1c
          obtain ⟨e4, -⟩ := listAll_cons_val_true h1d
          rw [abstractTagEq_val_true e1, val_decide_true e2, val_decide_true e3,
            val_decide_true e4]
      · rw [if_pos (by simp [hk])] at heq
        cases heq
  · intro t x
    cases htk : t.kind <;> simp [hashT, htk]

/-- C9: structural equality is only defined once parsing is complete; if
either entity of a same-kind pair has `parsed = false`, the kind equality
raises (`AbstractTAG.__eq__`, DWARFParser.py 369-374) instead of returning
a boolean. -/
theorem unparsed_eq_raises (h : Heap) (i j : Nat) (n : Nat)
    (hk : (h i).kind = (h j).kind)
    (hnp : ¬((h i).parsed = true ∧ (h j).parsed = true)) :
    eqF (n + 1) h i j = EqRes.exn := by
  have habs : abstractTagEq (h i) (h j) = EqRes.exn := by
    unfold abstractTagEq
    rw [if_neg (by simpa [Bool.and_eq_true] using hnp)]
  simp only [eqF]
  rw [if_neg (by simp [hk])]
  cases hkind : (h i).kind <;> simp [habs, listAll, EqRes.andSC]

theorem unparsed_eq_raises_witness :
    (unparsedHeap 0).kind = (unparsedHeap 1).kind ∧ eqF 3 unparsedHeap 0 1 = EqRes.exn :=
  ⟨by decide, unparsed_eq_raises unparsedHeap 0 1 2 (by decide) (by decide)⟩

theorem ptrCycle_out (n : Nat) : eqF n ptrCycleHeap 0 1 = EqRes.out := by
  induction n with
  | zero => rfl
  | succ n ih =>
    simp only [eqF]
    have h0 : ptrCycleHeap 0 = { kind := .pointerType, parsed := true, typ := some 0, size := some 8 } := rfl
    have h1 : ptrCycleHeap 1 = { kind := .pointerType, parsed := true, typ := some 1, size := some 8 } := rfl
    rw [h0, h1]
    simp [abstractTagEq, refCmp, listAll, EqRes.andSC, h0, h1, ih]

/-- C5, counterexample: evaluating the kind structural equality of the two
fully parsed pointer entities of `ptrCycleHeap` never returns a boolean at
any recursion depth (in Python: `__eq__` recurses through `Typed.__eq__`
without any cycle guard and dies with RecursionError), refuting termination
for arbitrary reference cycles. -/
theorem eq_cycle_diverges :
    (ptrCycleHeap 0).parsed = true ∧ (ptrCycleHeap 1).parsed = true ∧
    (ptrCycleHeap 0).kind = (ptrCycleHeap 1).kind ∧ ¬ eqTerminates ptrCycleHeap 0 1 := by
  refine ⟨rfl, rfl, rfl, ?_⟩
  rintro ⟨n, b, hnb⟩
  rw [ptrCycle_out n] at hnb
  cases hnb

theorem andSC_val_of (a r : EqRes) (ha : ∃ b, a = .val b) (hr : ∃ c, r = .val c) :
    ∃ d, a.andSC r = .val d := by
  obtain ⟨b, rfl⟩ := ha
  cases b
  · exact ⟨false, rfl⟩
  · obtain ⟨c, rfl⟩ := hr
    exact ⟨c, rfl⟩

theorem listAll_cons_val_of {r : EqRes} {l : List EqRes} (hr : ∃ b, r = .val b)
    (hl : ∃ c, listAll l = .val c) : ∃ d, listAll (r :: l) = .val d := by
  obtain ⟨b, rfl⟩ := hr
  obtain ⟨c, hc⟩ := hl
  exact ⟨b && c, by simp [listAll, hc]⟩

/-- C5, amended: the kind structural equality terminates (returns a
boolean) whenever every reference cycle is cut by a member-level
`is_similar` comparison — formally, whenever the references that the
equality actually recurses into (`recEdges`: `Typed` targets,
`specification`, `containing_structure`, subroutine parameters — but not
aggregate member lists) admit a strictly decreasing rank.  A
self-referential structure (member whose type points back to the
structure) satisfies the hypothesis; a pure modifier cycle such as
`ptrCycleHeap` does not. -/
theorem eq_terminates_of_rank (h : Heap) (rank : Nat → Nat)
    (hparsed : ∀ i, (h i).parsed = true)
    (helems : ∀ i, (h i).kind = TagKind.structureType →
      ∀ j ∈ (h i).elems, ((h j).typ).isSome = true)
    (hrank : ∀ i j, j ∈ recEdges (h i) → rank j < rank i) :
    ∀ n i j, rank i < n → ∃ b, eqF n h i j = EqRes.val b := by
  intro n
  induction n with
  | zero => intro i j hij; omega
  | succ n ih =>
    intro i j hij
    simp only [eqF]
    by_cases hk : (h i).kind = (h j).kind
    · rw [if_neg (by simp [hk])]
      have habs : ∃ b, abstractTagEq (h i) (h j) = EqRes.val b := by
        unfold abstractTagEq
        rw [if_pos (by simp [hparsed])]
        exact ⟨_, rfl⟩
      have hrefv : ∀ (x y : Option Nat), (∀ t, x = some t → rank t < n) →
          ∃ b, refCmp (eqF n h) x y = EqRes.val b := by
        intro x y hx
        cases x with
        | none =>
          cases y with
          | none => exact ⟨true, rfl⟩
          | some u => exact ⟨false, rfl⟩
        | some t =>
          cases y with
          | none => exact ⟨false, rfl⟩
          | some u => exact ih t u (hx t rfl)
      have hsim1 : ∀ (a b : Tag), a.typ.isSome = true → b.typ.isSome = true →
          ∃ c, is_similar h a b = EqRes.val c := by
        intro a b ha hb
        obtain ⟨ta, hta⟩ := Option.isSome_iff_exists.mp ha
        obtain ⟨tb, htb⟩ := Option.isSome_iff_exists.mp hb
        unfold is_similar
        rw [hta, htb]
        apply andSC_val_of _ _ ⟨_, rfl⟩
        apply andSC_val_of _ _ ⟨_, rfl⟩
        apply andSC_val_of _ _ ⟨_, rfl⟩
        apply andSC_val_of _ _ ⟨_, rfl⟩
        apply andSC_val_of _ _ ⟨_, rfl⟩
        apply andSC_val_of _ _ ⟨_, rfl⟩
        apply andSC_val_of _ _ ⟨_, rfl⟩
        apply andSC_val_of _ _ ⟨_, rfl⟩
        exact ⟨_, rfl⟩
      have hpairs : ∀ (xs ys : List Nat), (∀ x ∈ xs, ((h x).typ).isSome = true) →
          (∀ y ∈ ys, ((h y).typ).isSome = true) →
          ∃ b, pairwiseSimilar h xs ys = EqRes.val b := by
        intro xs
        induction xs with
        | nil => intro ys _ _; exact ⟨true, rfl⟩
        | cons x xs ihx =>
          intro ys hxs hys
          cases ys with
          | nil => exact ⟨true, rfl⟩
          | cons y ys =>
            apply andSC_val_of
            · exact hsim1 (h x) (h y) (hxs x (List.mem_cons_self x xs))
                (hys y (List.mem_cons_self y ys))
            · exact ihx ys (fun t ht => hxs t (List.mem_cons_of_mem x ht))
                (fun t ht => hys t (List.mem_cons_of_mem y ht))
      have hpar : ∀ (xs ys : List Nat), (∀ x ∈ xs, rank x < n) →
          ∃ b, paramsEqAux (eqF n h) xs ys = EqRes.val b := by
        intro xs
        induction xs with
        | nil => intro ys _; exact ⟨true, rfl⟩
        | cons x xs ihx =>
          intro ys hxs
          cases ys with
          | nil => exact ⟨true, rfl⟩
          | cons y ys =>
            apply andSC_val_of
            · by_cases hxy : x = y
              · exact ⟨true, by simp [hxy]⟩
              · have := ih x y (hxs x (List.mem_cons_self x xs))
                simpa [hxy] using this
            · exact ihx ys (fun t ht => hxs t (List.mem_cons_of_mem x ht))
      have hsucc : rank i ≤ n := Nat.lt_succ_iff.mp hij
      cases hkind : (h i).kind <;> simp only [hkind]
      case pos.baseType =>
        apply andSC_val_of
        · exact listAll_cons_val_of habs (listAll_cons_val_of ⟨_, rfl⟩
            (listAll_cons_val_of ⟨_, rfl⟩ ⟨true, rfl⟩))
        · exact andSC_val_of _ _ ⟨_, rfl⟩ (andSC_val_of _ _ ⟨_, rfl⟩ ⟨_, rfl⟩)
      case pos.pointerType =>
        refine listAll_cons_val_of habs (listAll_cons_val_of ?_
          (listAll_cons_val_of ⟨_, rfl⟩ (listAll_cons_val_of ⟨_, rfl⟩ ⟨true, rfl⟩)))
        apply hrefv
        intro t ht
        have : t ∈ recEdges (h i) := by simp [recEdges, hkind, ht]
        exact Nat.lt_of_lt_of_le (hrank i t this) hsucc
      case pos.typeDefType =>
        refine listAll_cons_val_of habs (listAll_cons_val_of ⟨_, rfl⟩
          (listAll_cons_val_of ⟨_, rfl⟩ (listAll_cons_val_of ⟨_, rfl⟩
            (listAll_cons_val_of ?_ (listAll_cons_val_of ⟨_, rfl⟩ ⟨true, rfl⟩)))))
        apply hrefv
        intro t ht
        have : t ∈ recEdges (h i) := by simp [recEdges, hkind, ht]
        exact Nat.lt_of_lt_of_le (hrank i t this) hsucc
      case pos.structureType =>
        apply andSC_val_of
        · exact listAll_cons_val_of habs (listAll_cons_val_of ⟨_, rfl⟩
            (listAll_cons_val_of ⟨_, rfl⟩ (listAll_cons_val_of ⟨_, rfl⟩
              (listAll_cons_val_of ⟨_, rfl⟩ ⟨true, rfl⟩))))
        apply andSC_val_of
        · apply hrefv
          intro t ht
          have : t ∈ recEdges (h i) := by simp [recEdges, hkind, ht]
          exact Nat.lt_of_lt_of_le (hrank i t this) hsucc
        apply andSC_val_of
        · unfold compare_members
          split
          · exact hpairs _ _ (helems i hkind) (helems j (hk ▸ hkind))
          · exact ⟨false, rfl⟩
        apply andSC_val_of _ _ ⟨_, rfl⟩
        apply andSC_val_of
        · apply hrefv
          intro t ht
          have : t ∈ recEdges (h i) := by simp [recEdges, hkind, ht]
          exact Nat.lt_of_lt_of_le (hrank i t this) hsucc
        exact ⟨_, rfl⟩
      case pos.memberTag =>
        apply andSC_val_of
        · refine listAll_cons_val_of habs (listAll_cons_val_of ⟨_, rfl⟩
            (listAll_cons_val_of ⟨_, rfl⟩ (listAll_cons_val_of ⟨_, rfl⟩
              (listAll_cons_val_of ⟨_, rfl⟩ (listAll_cons_val_of ⟨_, rfl⟩
                (listAll_cons_val_of ?_ ⟨true, rfl⟩))))))
          apply hrefv
          intro t ht
          have : t ∈ recEdges (h i) := by simp [recEdges, hkind, ht]
          exact Nat.lt_of_lt_of_le (hrank i t this) hsucc
        apply andSC_val_of
        · apply hrefv
          intro t ht
          have : t ∈ recEdges (h i) := by simp [recEdges, hkind, ht]
          exact Nat.lt_of_lt_of_le (hrank i t this) hsucc
        exact andSC_val_of _ _ ⟨_, rfl⟩ (andSC_val_of _ _ ⟨_, rfl⟩
          (andSC_val_of _ _ ⟨_, rfl⟩ ⟨_, rfl⟩))
      case pos.subroutineType =>
        apply andSC_val_of
        · refine listAll_cons_val_of habs (listAll_cons_val_of ⟨_, rfl⟩
            (listAll_cons_val_of ⟨_, rfl⟩ (listAll_cons_val_of ⟨_, rfl⟩
              (listAll_cons_val_of ?_ ⟨true, rfl⟩))))
          apply hrefv
          intro t ht
          have : t ∈ recEdges (h i) := by simp [recEdges, hkind, ht]
          exact Nat.lt_of_lt_of_le (hrank i t this) hsucc
        apply andSC_val_of _ _ ⟨_, rfl⟩
        apply andSC_val_of
        · unfold paramsEq
          split
          · apply hpar
            intro x hx
            have : x ∈ recEdges (h i) := by simp [recEdges, hkind, hx]
            exact Nat.lt_of_lt_of_le (hrank i x this) hsucc
          · exact ⟨false, rfl⟩
        exact ⟨_, rfl⟩
      case pos.formalParameter =>
        apply andSC_val_of
        · refine listAll_cons_val_of habs (listAll_cons_val_of ⟨_, rfl⟩
            (listAll_cons_val_of ?_ ⟨true, rfl⟩))
          apply hrefv
          intro t ht
          have : t ∈ recEdges (h i) := by simp [recEdges, hkind, ht]
          exact Nat.lt_of_lt_of_le (hrank i t this) hsucc
        exact andSC_val_of _ _ ⟨_, rfl⟩ (andSC_val_of _ _ ⟨_, rfl⟩
          (andSC_val_of _ _ ⟨_, rfl⟩ (andSC_val_of _ _ ⟨_, rfl⟩
            (andSC_val_of _ _ ⟨_, rfl⟩ ⟨_, rfl⟩))))
    · rw [if_pos (by simp [hk])]
      exact ⟨false, rfl⟩

theorem eq_terminates_of_rank_witness : ∃ b, eqF 1 selfRefHeap 0 3 = EqRes.val b := by
  apply eq_terminates_of_rank selfRefHeap selfRefRank ?_ ?_ ?_ 1 0 3 (by decide)
  · intro i
    rcases i with _ | _ | _ | _ | _ | _ | i <;> rfl
  · intro i hi j hj
    rcases i with _ | _ | _ | _ | _ | _ | i
    · simp only [selfRefHeap, List.mem_singleton] at hj
      subst hj
      decide
    · cases hi
    · cases hi
    · simp only [selfRefHeap, List.mem_singleton] at hj
      subst hj
      decide
    · cases hi
    · cases hi
    · cases hi
  · intro i j hj
    rcases i with _ | _ | _ | _ | _ | _ | i
    · simp [selfRefHeap, recEdges] at hj
    · simp [selfRefHeap, recEdges] at hj
      rcases hj with rfl | rfl
      · decide
      · decide
    · simp [selfRefHeap, recEdges] at hj
      subst hj
      decide
    · simp [selfRefHeap, recEdges] at hj
    · simp [selfRefHeap, recEdges] at hj
      rcases hj with rfl | rfl
      · decide
      · decide
    · simp [selfRefHeap, recEdges] at hj
      subst hj
      decide
    · simp [selfRefHeap, recEdges] at hj

theorem eq_implies_hash_eq_witness :
    eqF 2 hashEqHeap 0 1 = EqRes.val true ∧
    hashT (hashEqHeap 0) = hashT (hashEqHeap 1) ∧
    hashT { hashEqHeap 2 with typ := some 99 } = hashT (hashEqHeap 2) :=
  ⟨by decide, eq_implies_hash_eq.1 2 hashEqHeap 0 1 (by decide),
    eq_implies_hash_eq.2 (hashEqHeap 2) (some 99)⟩

/-- C8: `Member.get_offset` returns an integer location literally as the
byte offset (with the bit offset defaulting to 0); a block whose first
opcode is 0x23 (`DW_OP_plus_uconst`, the single supported operation) adds
the operand to the top of the evaluation stack; a block with any other
first opcode raises the unsupported-location-expression error. -/
theorem get_offset_spec :
    (∀ (n : Int) (dbo : Option Int) (st : List Int),
        get_offset (.int n) dbo st = .ok (some (n, dbo.getD 0))) ∧
    (∀ (operand : Int) (rest : List Int) (dbo : Option Int) (st : List Int) (top : Int),
        st.getLast? = some top →
        get_offset (.block (0x23 :: operand :: rest)) dbo st =
          .ok (some (operand + top, dbo.getD 0))) ∧
    (∀ (op : Int) (rest : List Int) (dbo : Option Int) (st : List Int),
        op ≠ 0x23 →
        get_offset (.block (op :: rest)) dbo st =
          .error (.unsupportedLocationExpression op)) := by
  refine ⟨fun n dbo st => rfl, ?_, ?_⟩
  · intro operand rest dbo st top hl
    simp [get_offset, hl]
  · intro op rest dbo st hop
    simp [get_offset, hop]

theorem get_offset_spec_witness :
    get_offset (.int 4) (some 3) [0] = .ok (some (4, 3)) ∧
    get_offset (.block [0x23, 5]) none [0] = .ok (some (5 + 0, 0)) ∧
    get_offset (.block [0x10, 5]) none [0] = .error (.unsupportedLocationExpression 0x10) :=
  ⟨get_offset_spec.1 4 (some 3) [0],
   get_offset_spec.2.1 5 [] none [0] 0 rfl,
   get_offset_spec.2.2 0x10 [5] none [0] (by decide)⟩

theorem toBytesLE_lt (w m : Nat) : ∀ b ∈ toBytesLE w m, b < 256 := by
  induction w generalizing m with
  | zero => intro b hb; cases hb
  | succ w ih =>
    intro b hb
    rcases List.mem_cons.mp hb with rfl | hb2
    · exact Nat.mod_lt m (by omega)
    · exact ih (m / 256) b hb2

theorem toBytesLE_zero (w : Nat) : toBytesLE w 0 = List.replicate w 0 := by
  induction w with
  | zero => rfl
  | succ w ih => simp [toBytesLE, ih, List.replicate]

/-- C10: for a signed integer entry of `datawidth` bytes, `Int.to_bytes`
raises `ValueError` exactly when the integer value lies outside
[-(2^(8w-1)), 2^(8w-1)-1]; every in-range value is encoded as exactly `w`
bytes, the little-endian two's-complement encoding of the value (reading
the bytes back as a two's-complement little-endian number recovers the
value); a `None` input is encoded as 0. -/
theorem Int_to_bytes_spec (w : Nat) (hw : 1 ≤ w) :
    (∀ v : Int, (∃ e, Int_to_bytes w (some v) = .error e) ↔
        (v < -(2 ^ (w * 8 - 1)) ∨ v > 2 ^ (w * 8 - 1) - 1)) ∧
    (∀ v : Int, -(2 ^ (w * 8 - 1)) ≤ v → v ≤ 2 ^ (w * 8 - 1) - 1 →
        ∃ bs, Int_to_bytes w (some v) = .ok bs ∧ bs.length = w ∧
          (∀ b ∈ bs, b < 256) ∧ asSigned w (fromBytesLE bs) = v) ∧
    Int_to_bytes w none = .ok (List.replicate w 0) := by
  have hpow : (2 : Int) ^ (w * 8) = 2 * 2 ^ (w * 8 - 1) := by
    rw [← pow_succ']
    congr 1
    omega
  have hhalfpos : (0 : Int) < 2 ^ (w * 8 - 1) := by positivity
  have hcast : ((2 ^ (w * 8 - 1) : Nat) : Int) = 2 ^ (w * 8 - 1) := by push_cast; ring
  have hcastn : ((2 ^ (w * 8) : Nat) : Int) = 2 ^ (w * 8) := by push_cast; ring
  refine ⟨?_, ?_, ?_⟩
  · intro v
    constructor
    · rintro ⟨e, he⟩
      simp only [Int_to_bytes, Option.getD_some] at he
      split at he
      · rename_i hcond
        simp only [Int_lower_limit, Int_upper_limit] at hcond
        exact hcond
      · cases he
    · intro hcond
      refine ⟨v, ?_⟩
      simp only [Int_to_bytes, Option.getD_some]
      rw [if_pos (by simp only [Int_lower_limit, Int_upper_limit]; exact hcond)]
  · intro v hlo hhi
    have hnotc : ¬(v < Int_lower_limit w ∨ v > Int_upper_limit w) := by
      simp only [Int_lower_limit, Int_upper_limit]
      omega
    have hmodlt : v % 2 ^ (w * 8) < 2 ^ (w * 8) :=
      Int.emod_lt_of_pos v (by positivity)
    have hmodge : 0 ≤ v % 2 ^ (w * 8) :=
      Int.emod_nonneg v (by positivity)
    have h256 : (256 : Nat) ^ w = 2 ^ (w * 8) := by
      rw [show (256 : Nat) = 2 ^ 8 from rfl, ← pow_mul, Nat.mul_comm]
    have hnatlt : (v % 2 ^ (w * 8)).toNat < 256 ^ w := by
      rw [h256]
      omega
    refine ⟨toBytesLE w (v % 2 ^ (w * 8)).toNat, ?_, toBytesLE_length _ _,
      toBytesLE_lt _ _, ?_⟩
    · simp only [Int_to_bytes, Option.getD_some]
      rw [if_neg hnotc]
    · rw [fromBytesLE_toBytesLE, Nat.mod_eq_of_lt hnatlt]
      rcases le_or_lt 0 v with hv | hv
      · have hmod : v % 2 ^ (w * 8) = v := Int.emod_eq_of_lt hv (by omega)
        rw [hmod]
        have hvlt : v.toNat < 2 ^ (w * 8 - 1) := by omega
        unfold asSigned
        rw [if_pos hvlt]
        exact Int.toNat_of_nonneg hv
      · have hmod : v % 2 ^ (w * 8) = v + 2 ^ (w * 8) := by
          have h1 : (v + 2 ^ (w * 8) * 1) % 2 ^ (w * 8) = v % 2 ^ (w * 8) :=
            Int.add_mul_emod_self_left v (2 ^ (w * 8)) 1
          rw [mul_one] at h1
          rw [← h1]
          exact Int.emod_eq_of_lt (by omega) (by omega)
        rw [hmod]
        have hge : ¬((v + 2 ^ (w * 8)).toNat < 2 ^ (w * 8 - 1)) := by omega
        unfold asSigned
        rw [if_neg hge, Int.toNat_of_nonneg (by omega)]
        omega
  · simp only [Int_to_bytes, Option.getD_none]
    rw [if_neg (by simp only [Int_lower_limit, Int_upper_limit]; omega)]
    rw [show ((0 : Int) % 2 ^ (w * 8)).toNat = 0 by simp]
    rw [toBytesLE_zero]

theorem Int_to_bytes_spec_witness :
    (∃ e, Int_to_bytes 2 (some 40000) = .error e) ∧
    (∃ bs, Int_to_bytes 2 (some (-2)) = .ok bs ∧ bs.length = 2 ∧
      (∀ b ∈ bs, b < 256) ∧ asSigned 2 (fromBytesLE bs) = -2) ∧
    Int_to_bytes 2 none = .ok (List.replicate 2 0) :=
  ⟨((Int_to_bytes_spec 2 (by decide)).1 40000).mpr (by decide),
   (Int_to_bytes_spec 2 (by decide)).2.1 (-2) (by decide) (by decide),
   (Int_to_bytes_spec 2 (by decide)).2.2⟩

theorem setSingle_getSingle (t : Tag) (a : RefAttr) : setSingle t a (getSingle t a) = t := by
  cases a <;> rfl

theorem rewriteVal_nil : rewriteVal [] = fun v => v := funext fun _ => rfl

theorem rewriteTag_nil (t : Tag) : rewriteTag [] t = t := by
  unfold rewriteTag
  simp only [rewriteVal_nil, Option.map_id', List.map_id']
  have h1 : ∀ (l : List RefAttr) (u : Tag),
      l.foldl (fun acc a => setSingle acc a (getSingle acc a)) u = u := by
    intro l
    induction l with
    | nil => intro u; rfl
    | cons a l ih => intro u; rw [List.foldl_cons, setSingle_getSingle]; exact ih u
  have h2 : ∀ (l : List RefAttr) (u : Tag),
      l.foldl (fun acc a => setListAttr acc a (getListAttr acc a)) u = u := by
    intro l
    induction l with
    | nil => intro u; rfl
    | cons a l ih =>
      intro u
      rw [List.foldl_cons]
      have : setListAttr u a (getListAttr u a) = u := by cases a <;> rfl
      rw [this]
      exact ih u
  rw [h1, h2]

theorem removeDuplicatesOnce_nil (s : PState) : removeDuplicatesOnce s [] = s := by
  unfold removeDuplicatesOnce removePhase allDups
  simp only [List.flatMap_nil, List.foldl_nil]
  unfold scanPhase
  have hfun : (fun i => if i ∈ s.table then rewriteTag [] (s.tags i) else s.tags i) = s.tags := by
    funext i
    rw [rewriteTag_nil]
    exact ite_self _
  rw [hfun]

theorem addDup_cases {dups : Dups} {u t : Nat} {p : Nat × List Nat}
    (hp : p ∈ addDup dups u t) :
    p ∈ dups ∨ (p.1 = u ∧ p.2 = [t]) ∨ ∃ l, (p.1, l) ∈ dups ∧ p.2 = l ++ [t] := by
  induction dups with
  | nil =>
    simp only [addDup, List.mem_singleton] at hp
    subst hp
    exact Or.inr (Or.inl ⟨rfl, rfl⟩)
  | cons q rest ih =>
    rcases q with ⟨k, l⟩
    simp only [addDup] at hp
    by_cases hk : k = u
    · rw [if_pos hk] at hp
      rcases List.mem_cons.mp hp with rfl | hrest
      · exact Or.inr (Or.inr ⟨l, by simp [hk], rfl⟩)
      · exact Or.inl (List.mem_cons_of_mem _ hrest)
    · rw [if_neg hk] at hp
      rcases List.mem_cons.mp hp with rfl | hrest
      · exact Or.inl (List.mem_cons_self _ _)
      · rcases ih hrest with h | h | ⟨l2, hl2, he⟩
        · exact Or.inl (List.mem_cons_of_mem _ h)
        · exact Or.inr (Or.inl h)
        · exact Or.inr (Or.inr ⟨l2, List.mem_cons_of_mem _ hl2, he⟩)

theorem bucketFold_inv (e : Nat → Nat → Bool) (bucket : List Nat)
    (T : Nat → Prop) (hbucket : ∀ x ∈ bucket, T x) :
    ∀ (us : List Nat) (dacc : Dups),
    (∀ u ∈ us, T u) →
    (∀ p ∈ dacc, T p.1 ∧ p.2 ≠ [] ∧ ∀ d ∈ p.2, T d) →
    (∀ u ∈ (bucket.foldl (bucketDupStep e) (us, dacc)).1, T u) ∧
    (∀ p ∈ (bucket.foldl (bucketDupStep e) (us, dacc)).2,
      T p.1 ∧ p.2 ≠ [] ∧ ∀ d ∈ p.2, T d) := by
  induction bucket with
  | nil => intro us dacc hus hdacc; exact ⟨hus, hdacc⟩
  | cons t bucket ih =>
    intro us dacc hus hdacc
    have hT : T t := hbucket t (List.mem_cons_self _ _)
    have hbucket2 : ∀ x ∈ bucket, T x := fun x hx => hbucket x (List.mem_cons_of_mem _ hx)
    rw [List.foldl_cons]
    rcases hfind : us.find? (fun u => u = t || e u t) with _ | u
    · have hred : bucketDupStep e (us, dacc) t = (us ++ [t], dacc) := by
        simp [bucketDupStep, hfind]
      rw [hred]
      exact ih hbucket2 (us ++ [t]) dacc
        (fun u hu => by
          rcases List.mem_append.mp hu with h | h
          · exact hus u h
          · rw [List.mem_singleton.mp h]; exact hT)
        hdacc
    · have hred : bucketDupStep e (us, dacc) t = (us, addDup dacc u t) := by
        simp [bucketDupStep, hfind]
      rw [hred]
      refine ih hbucket2 us (addDup dacc u t) hus ?_
      intro p hp
      have huT : T u := hus u (List.mem_of_find?_eq_some hfind)
      rcases addDup_cases hp with h | ⟨h1, h2⟩ | ⟨l, hl, he⟩
      · exact hdacc p h
      · exact ⟨h1 ▸ huT, by simp [h2], by
          intro d hd
          rw [h2] at hd
          rw [List.mem_singleton.mp hd]
          exact hT⟩
      · obtain ⟨hk, _, hels⟩ := hdacc (p.1, l) hl
        refine ⟨hk, by simp [he], ?_⟩
        intro d hd
        rw [he] at hd
        rcases List.mem_append.mp hd with h | h
        · exact hels d h
        · rw [List.mem_singleton.mp h]; exact hT

theorem mem_bucketOf {s : PState} {k : TagKind} {hv : Int} {x : Nat}
    (hx : x ∈ bucketOf s k hv) : x ∈ s.table := by
  unfold bucketOf tagsOfKind at hx
  exact (List.mem_filter.mp (List.mem_filter.mp hx).1).1

theorem getDuplicates_shape (eqFn : Heap → Nat → Nat → Bool) (s : PState) :
    ∀ p ∈ getDuplicatesWith eqFn s, p.1 ∈ s.table ∧ p.2 ≠ [] ∧ ∀ d ∈ p.2, d ∈ s.table := by
  intro p hp
  unfold getDuplicatesWith at hp
  rw [List.mem_flatMap] at hp
  obtain ⟨k, _, hp2⟩ := hp
  unfold dupPortion at hp2
  have hfold : ∀ (buckets : List (List Nat)) (dacc : Dups),
      (∀ b ∈ buckets, ∀ x ∈ b, x ∈ s.table) →
      (∀ q ∈ dacc, q.1 ∈ s.table ∧ q.2 ≠ [] ∧ ∀ d ∈ q.2, d ∈ s.table) →
      ∀ q ∈ buckets.foldl
        (fun (dacc : Dups) bucket => (bucket.foldl (bucketDupStep (eqFn s.tags)) ([], dacc)).2)
        dacc,
        q.1 ∈ s.table ∧ q.2 ≠ [] ∧ ∀ d ∈ q.2, d ∈ s.table := by
    intro buckets
    induction buckets with
    | nil => intro dacc _ hdacc q hq; exact hdacc q hq
    | cons b buckets ih =>
      intro dacc hb hdacc q hq
      rw [List.foldl_cons] at hq
      refine ih _ (fun b2 hb2 x hx => hb b2 (List.mem_cons_of_mem _ hb2) x hx) ?_ q hq
      have := bucketFold_inv (eqFn s.tags) b (· ∈ s.table)
        (fun x hx => hb b (List.mem_cons_self _ _) x hx) [] dacc
        (by intro u hu; cases hu) hdacc
      exact this.2
  refine hfold (bucketsOfKind s k) [] ?_ (by intro q hq; cases hq) p hp2
  intro b hb x hx
  unfold bucketsOfKind at hb
  rw [List.mem_map] at hb
  obtain ⟨hv, _, rfl⟩ := hb
  exact mem_bucketOf hx

theorem foldl_remove_table (ds : List Nat) (r : Option Nat) :
    ∀ (s : PState),
    (ds.foldl (fun st d => removeTagExact st d r) s).table =
      ds.foldl (fun tb d => tb.filter (fun x => x ≠ d)) s.table := by
  induction ds with
  | nil => intro s; rfl
  | cons d ds ih =>
    intro s
    rw [List.foldl_cons, List.foldl_cons]
    exact ih (removeTagExact s d r)

theorem filter_fold_sublist (ds : List Nat) :
    ∀ (tb : List Nat), (ds.foldl (fun tb d => tb.filter (fun x => x ≠ d)) tb).Sublist tb := by
  induction ds with
  | nil => intro tb; exact List.Sublist.refl tb
  | cons d ds ih =>
    intro tb
    rw [List.foldl_cons]
    exact (ih (tb.filter (fun x => x ≠ d))).trans (List.filter_sublist tb)

theorem mem_filter_fold (ds : List Nat) :
    ∀ (tb : List Nat) (x : Nat),
    x ∈ ds.foldl (fun tb d => tb.filter (fun y => y ≠ d)) tb ↔ x ∈ tb ∧ x ∉ ds := by
  induction ds with
  | nil => intro tb x; simp
  | cons d ds ih =>
    intro tb x
    rw [List.foldl_cons, ih]
    simp only [List.mem_filter, List.mem_cons, decide_eq_true_eq]
    constructor
    · rintro ⟨⟨h1, h2⟩, h3⟩
      exact ⟨h1, by intro hc; rcases hc with rfl | hc; exact h2 rfl; exact h3 hc⟩
    · rintro ⟨h1, h2⟩
      exact ⟨⟨h1, fun hc => h2 (Or.inl hc)⟩, fun hc => h2 (Or.inr hc)⟩

/-- C2: deduplication runs to a fixpoint and is idempotent —
`_remove_duplicates` re-runs `_get_duplicates` after each pass and recurses
while any duplicate remains, so when it returns, the duplicate-detection
pass on the resulting canonical table finds zero further duplicates.  The
result holds for every kind equality `eqFn` because each pass with a
non-empty duplicates dictionary strictly shrinks the table. -/
theorem dedup_reaches_fixpoint (eqFn : Heap → Nat → Nat → Bool) :
    ∀ (fuel : Nat) (s : PState) (dups : Dups),
      dups = getDuplicatesWith eqFn s → s.table.length < fuel →
      getDuplicatesWith eqFn (removeDuplicates eqFn fuel s dups) = [] := by
  intro fuel
  induction fuel with
  | zero => intro s dups _ hlen; omega
  | succ fuel ih =>
    intro s dups hdups hlen
    show getDuplicatesWith eqFn
      (if (getDuplicatesWith eqFn (removeDuplicatesOnce s dups)).isEmpty
       then removeDuplicatesOnce s dups
       else removeDuplicates eqFn fuel (removeDuplicatesOnce s dups)
         (getDuplicatesWith eqFn (removeDuplicatesOnce s dups))) = []
    by_cases hemp : (getDuplicatesWith eqFn (removeDuplicatesOnce s dups)).isEmpty = true
    · rw [if_pos hemp]
      exact List.isEmpty_iff.mp hemp
    · rw [if_neg hemp]
      apply ih
      · rfl
      · by_cases hne : dups = []
        · exfalso
          apply hemp
          rw [hne, removeDuplicatesOnce_nil, ← hdups, hne]
          rfl
        · obtain ⟨p, hp⟩ := List.exists_mem_of_ne_nil dups hne
          obtain ⟨hp1, hp2ne, hpel⟩ := getDuplicates_shape eqFn s p (hdups ▸ hp)
          obtain ⟨d0, hd0⟩ := List.exists_mem_of_ne_nil p.2 hp2ne
          have hd0dups : d0 ∈ allDups dups := by
            unfold allDups
            rw [List.mem_flatMap]
            exact ⟨p, hp, hd0⟩
          have hd0tb : d0 ∈ s.table := hpel d0 hd0
          have htb : (removeDuplicatesOnce s dups).table =
              (allDups dups).foldl (fun tb d => tb.filter (fun x => x ≠ d)) s.table := by
            unfold removeDuplicatesOnce removePhase
            rw [foldl_remove_table]
            rfl
          have hsub := filter_fold_sublist (allDups dups) s.table
          have hlt : (removeDuplicatesOnce s dups).table.length < s.table.length := by
            rw [htb]
            rcases Nat.lt_or_ge
              ((allDups dups).foldl (fun tb d => tb.filter (fun x => x ≠ d)) s.table).length
              s.table.length with hcase | hcase
            · exact hcase
            · exfalso
              have heq : (allDups dups).foldl (fun tb d => tb.filter (fun x => x ≠ d)) s.table
                  = s.table :=
                hsub.eq_of_length (le_antisymm hsub.length_le hcase)
              have hmem : d0 ∈ (allDups dups).foldl
                  (fun tb d => tb.filter (fun x => x ≠ d)) s.table := by
                rw [heq]
                exact hd0tb
              exact ((mem_filter_fold _ _ _).mp hmem).2 hd0dups
          omega

theorem dedup_reaches_fixpoint_witness :
    dupState.table.length < 3 ∧
    getDuplicatesWith eqByName
      (removeDuplicates eqByName 3 dupState (getDuplicatesWith eqByName dupState)) = [] :=
  ⟨by decide, dedup_reaches_fixpoint eqByName 3 dupState _ rfl (by decide)⟩

theorem getLast?_mem_list {l : List Nat} {r : Nat} (hl : l.getLast? = some r) : r ∈ l := by
  obtain ⟨hne, heq⟩ := List.mem_getLast?_eq_getLast (l := l) (x := r) (by rw [Option.mem_def, hl])
  rw [heq]
  exact List.getLast_mem hne

theorem mem_keysInOrder {α : Type} [DecidableEq α] (l : List α) (x : α) :
    x ∈ keysInOrder l ↔ x ∈ l := by
  have haux : ∀ (l : List α) (acc : List α),
      x ∈ l.foldl (fun acc y => if y ∈ acc then acc else acc ++ [y]) acc ↔ x ∈ acc ∨ x ∈ l := by
    intro l
    induction l with
    | nil => intro acc; simp
    | cons y l ih =>
      intro acc
      rw [List.foldl_cons]
      by_cases hy : y ∈ acc
      · rw [if_pos hy, ih]
        constructor
        · rintro (h | h)
          · exact Or.inl h
          · exact Or.inr (List.mem_cons_of_mem _ h)
        · rintro (h | h)
          · exact Or.inl h
          · rcases List.mem_cons.mp h with rfl | h2
            · exact Or.inl hy
            · exact Or.inr h2
      · rw [if_neg hy, ih]
        constructor
        · rintro (h | h)
          · rcases List.mem_append.mp h with h2 | h2
            · exact Or.inl h2
            · exact Or.inr (List.mem_cons.mpr (Or.inl (List.mem_singleton.mp h2)))
          · exact Or.inr (List.mem_cons_of_mem _ h)
        · rintro (h | h)
          · exact Or.inl (List.mem_append.mpr (Or.inl h))
          · rcases List.mem_cons.mp h with rfl | h2
            · exact Or.inl (List.mem_append.mpr (Or.inr (List.mem_singleton.mpr rfl)))
            · exact Or.inr h2
  rw [keysInOrder, haux]
  simp

theorem keysInOrder_nodup {α : Type} [DecidableEq α] (l : List α) : (keysInOrder l).Nodup := by
  have haux : ∀ (l : List α) (acc : List α), acc.Nodup →
      (l.foldl (fun acc y => if y ∈ acc then acc else acc ++ [y]) acc).Nodup := by
    intro l
    induction l with
    | nil => intro acc h; exact h
    | cons y l ih =>
      intro acc hacc
      rw [List.foldl_cons]
      by_cases hy : y ∈ acc
      · rw [if_pos hy]; exact ih acc hacc
      · rw [if_neg hy]
        refine ih _ (List.Nodup.append hacc (List.nodup_singleton y) ?_)
        intro a ha hay
        rw [List.mem_singleton.mp hay] at ha
        exact hy ha
  exact haux l [] List.nodup_nil

theorem mem_bucketOf_iff {s : PState} {k : TagKind} {hv : Int} {x : Nat} :
    x ∈ bucketOf s k hv ↔ x ∈ s.table ∧ (s.tags x).kind = k ∧ (s.tags x).hsh = hv := by
  unfold bucketOf tagsOfKind
  simp only [List.mem_filter, decide_eq_true_eq]
  tauto

theorem bucketOf_nodup (s : PState) (k : TagKind) (hv : Int) (hnd : s.table.Nodup) :
    (bucketOf s k hv).Nodup :=
  (hnd.filter _).filter _

theorem bucketsOfKind_flatten_nodup (s : PState) (k : TagKind) (hnd : s.table.Nodup) :
    (bucketsOfKind s k).flatten.Nodup := by
  rw [List.nodup_flatten]
  constructor
  · intro b hb
    rw [bucketsOfKind, List.mem_map] at hb
    obtain ⟨hv, _, rfl⟩ := hb
    exact bucketOf_nodup s k hv hnd
  · unfold bucketsOfKind
    refine List.Pairwise.map (bucketOf s k) ?_
      ((keysInOrder_nodup _).imp (fun hab => hab))
    intro hv hv2 hne x hx hx2
    exact hne ((mem_bucketOf_iff.mp hx).2.2.symm.trans (mem_bucketOf_iff.mp hx2).2.2)

theorem mem_bucketsOfKind {s : PState} {k : TagKind} {b : List Nat}
    (hb : b ∈ bucketsOfKind s k) : ∀ x ∈ b, x ∈ s.table ∧ (s.tags x).kind = k := by
  rw [bucketsOfKind, List.mem_map] at hb
  obtain ⟨hv, _, rfl⟩ := hb
  intro x hx
  exact ⟨(mem_bucketOf_iff.mp hx).1, (mem_bucketOf_iff.mp hx).2.1⟩

theorem portionFold_inv (e : Nat → Nat → Bool) (buckets : List (List Nat)) (T : Nat → Prop)
    (hb : ∀ b ∈ buckets, ∀ x ∈ b, T x) :
    ∀ (dacc : Dups), (∀ q ∈ dacc, T q.1 ∧ q.2 ≠ [] ∧ ∀ d ∈ q.2, T d) →
    ∀ q ∈ buckets.foldl
      (fun (dacc : Dups) bucket => (bucket.foldl (bucketDupStep e) ([], dacc)).2) dacc,
      T q.1 ∧ q.2 ≠ [] ∧ ∀ d ∈ q.2, T d := by
  induction buckets with
  | nil => intro dacc hdacc q hq; exact hdacc q hq
  | cons b buckets ih =>
    intro dacc hdacc q hq
    rw [List.foldl_cons] at hq
    refine ih (fun b2 hb2 x hx => hb b2 (List.mem_cons_of_mem _ hb2) x hx) _ ?_ q hq
    exact (bucketFold_inv e b T (fun x hx => hb b (List.mem_cons_self _ _) x hx) [] dacc
      (by intro u hu; cases hu) hdacc).2

theorem dupPortion_kind (eqFn : Heap → Nat → Nat → Bool) (s : PState) (k : TagKind) :
    ∀ p ∈ dupPortion eqFn s k,
      (s.tags p.1).kind = k ∧ p.2 ≠ [] ∧ ∀ d ∈ p.2, (s.tags d).kind = k := by
  intro p hp
  unfold dupPortion at hp
  exact portionFold_inv (eqFn s.tags) (bucketsOfKind s k) (fun x => (s.tags x).kind = k)
    (fun b hb x hx => (mem_bucketsOfKind hb x hx).2) [] (by intro q hq; cases hq) p hp

theorem mem_allDups {dups : Dups} {x : Nat} :
    x ∈ allDups dups ↔ ∃ p ∈ dups, x ∈ p.2 := by
  unfold allDups
  rw [List.mem_flatMap]

theorem allDups_addDup {dacc : Dups} {u t x : Nat} (hx : x ∈ allDups (addDup dacc u t)) :
    x ∈ allDups dacc ∨ x = t := by
  rw [mem_allDups] at hx
  obtain ⟨p, hp, hxp⟩ := hx
  rcases addDup_cases hp with h | ⟨h1, h2⟩ | ⟨l, hl, he⟩
  · exact Or.inl (mem_allDups.mpr ⟨p, h, hxp⟩)
  · rw [h2, List.mem_singleton] at hxp
    exact Or.inr hxp
  · rw [he, List.mem_append] at hxp
    rcases hxp with h | h
    · exact Or.inl (mem_allDups.mpr ⟨(p.1, l), hl, h⟩)
    · exact Or.inr (List.mem_singleton.mp h)

theorem bucketFold_disjoint (e : Nat → Nat → Bool) :
    ∀ (bucket us : List Nat) (dacc : Dups) (done : List Nat),
    (done ++ bucket).Nodup →
    (∀ u ∈ us, u ∈ done) →
    (∀ u ∈ us, u ∉ allDups dacc) →
    (∀ p ∈ dacc, p.1 ∈ done ∧ ∀ d ∈ p.2, d ∈ done) →
    (∀ p ∈ dacc, p.1 ∉ allDups dacc) →
    ((∀ p ∈ (bucket.foldl (bucketDupStep e) (us, dacc)).2,
        p.1 ∈ done ++ bucket ∧ ∀ d ∈ p.2, d ∈ done ++ bucket) ∧
     (∀ p ∈ (bucket.foldl (bucketDupStep e) (us, dacc)).2,
        p.1 ∉ allDups (bucket.foldl (bucketDupStep e) (us, dacc)).2)) := by
  intro bucket
  induction bucket with
  | nil =>
    intro us dacc done _ _ _ hdone hdisj
    exact ⟨fun p hp => by
        obtain ⟨h1, h2⟩ := hdone p hp
        exact ⟨List.mem_append.mpr (Or.inl h1), fun d hd => List.mem_append.mpr (Or.inl (h2 d hd))⟩,
      hdisj⟩
  | cons t bucket ih =>
    intro us dacc done hnd hus hus2 hdone hdisj
    have hfresh : t ∉ done := by
      have hdisj2 := (List.nodup_append.mp hnd).2.2
      intro hc
      exact hdisj2 hc (List.mem_cons_self _ _)
    have hnd2 : ((done ++ [t]) ++ bucket).Nodup := by
      rw [← List.append_cons]
      exact hnd
    have hdupdone : ∀ x ∈ allDups dacc, x ∈ done := by
      intro x hx
      obtain ⟨p, hp, hxp⟩ := mem_allDups.mp hx
      exact (hdone p hp).2 x hxp
    have hrecl : done ++ t :: bucket = (done ++ [t]) ++ bucket := by
      rw [← List.append_cons]
    rw [List.foldl_cons]
    rcases hfind : us.find? (fun u => u = t || e u t) with _ | u
    · have hred : bucketDupStep e (us, dacc) t = (us ++ [t], dacc) := by
        simp [bucketDupStep, hfind]
      rw [hred, hrecl]
      refine ih (us ++ [t]) dacc (done ++ [t]) hnd2 ?_ ?_ ?_ hdisj
      · intro u hu
        rcases List.mem_append.mp hu with h | h
        · exact List.mem_append.mpr (Or.inl (hus u h))
        · exact List.mem_append.mpr (Or.inr h)
      · intro u hu
        rcases List.mem_append.mp hu with h | h
        · exact hus2 u h
        · rw [List.mem_singleton.mp h]
          intro hc
          exact hfresh (hdupdone t hc)
      · intro p hp
        obtain ⟨h1, h2⟩ := hdone p hp
        exact ⟨List.mem_append.mpr (Or.inl h1), fun d hd => List.mem_append.mpr (Or.inl (h2 d hd))⟩
    · have hred : bucketDupStep e (us, dacc) t = (us, addDup dacc u t) := by
        simp [bucketDupStep, hfind]
      have huus : u ∈ us := List.mem_of_find?_eq_some hfind
      rw [hred, hrecl]
      refine ih us (addDup dacc u t) (done ++ [t]) hnd2 ?_ ?_ ?_ ?_
      · intro u2 hu2
        exact List.mem_append.mpr (Or.inl (hus u2 hu2))
      · intro u2 hu2 hc
        rcases allDups_addDup hc with h | rfl
        · exact hus2 u2 hu2 h
        · exact hfresh (hus u2 hu2)
      · intro p hp
        rcases addDup_cases hp with h | ⟨h1, h2⟩ | ⟨l, hl, he⟩
        · obtain ⟨h1, h2⟩ := hdone p h
          exact ⟨List.mem_append.mpr (Or.inl h1),
            fun d hd => List.mem_append.mpr (Or.inl (h2 d hd))⟩
        · refine ⟨h1 ▸ List.mem_append.mpr (Or.inl (hus u huus)), ?_⟩
          intro d hd
          rw [h2, List.mem_singleton] at hd
          rw [hd]
          exact List.mem_append.mpr (Or.inr (List.mem_singleton.mpr rfl))
        · obtain ⟨h1, h2⟩ := hdone (p.1, l) hl
          refine ⟨List.mem_append.mpr (Or.inl h1), ?_⟩
          intro d hd
          rw [he, List.mem_append] at hd
          rcases hd with h | h
          · exact List.mem_append.mpr (Or.inl (h2 d h))
          · rw [List.mem_singleton.mp h]
            exact List.mem_append.mpr (Or.inr (List.mem_singleton.mpr rfl))
      · intro p hp hc
        have hkey_done : p.1 ∈ done := by
          rcases addDup_cases hp with h | ⟨h1, _⟩ | ⟨l, hl, _⟩
          · exact (hdone p h).1
          · exact h1 ▸ hus u huus
          · exact (hdone (p.1, l) hl).1
        have hkey_old : p.1 ∉ allDups dacc := by
          rcases addDup_cases hp with h | ⟨h1, _⟩ | ⟨l, hl, _⟩
          · exact hdisj p h
          · exact h1 ▸ hus2 u huus
          · exact hdisj (p.1, l) hl
        rcases allDups_addDup hc with h | h
        · exact hkey_old h
        · exact hfresh (h ▸ hkey_done)

theorem portionFold_disjoint (e : Nat → Nat → Bool) :
    ∀ (buckets : List (List Nat)) (dacc : Dups) (done : List Nat),
    (done ++ buckets.flatten).Nodup →
    (∀ p ∈ dacc, p.1 ∈ done ∧ ∀ d ∈ p.2, d ∈ done) →
    (∀ p ∈ dacc, p.1 ∉ allDups dacc) →
    ∀ p ∈ buckets.foldl
      (fun (dacc : Dups) bucket => (bucket.foldl (bucketDupStep e) ([], dacc)).2) dacc,
      p.1 ∉ allDups (buckets.foldl
        (fun (dacc : Dups) bucket => (bucket.foldl (bucketDupStep e) ([], dacc)).2) dacc) := by
  intro buckets
  induction buckets with
  | nil => intro dacc done _ _ hdisj p hp; exact hdisj p hp
  | cons b buckets ih =>
    intro dacc done hnd hdone hdisj
    rw [List.foldl_cons]
    have hndb : (done ++ b).Nodup := by
      refine List.Sublist.nodup ?_ hnd
      rw [List.flatten_cons, ← List.append_assoc]
      exact List.sublist_append_left _ _
    have hstep := bucketFold_disjoint e b [] dacc done hndb
      (by intro u hu; cases hu) (by intro u hu; cases hu) hdone hdisj
    refine ih (b.foldl (bucketDupStep e) ([], dacc)).2 (done ++ b) ?_ hstep.1 hstep.2
    rw [List.flatten_cons, ← List.append_assoc] at hnd
    exact hnd

theorem getDuplicates_disjoint (eqFn : Heap → Nat → Nat → Bool) (s : PState)
    (hnd : s.table.Nodup) :
    ∀ p ∈ getDuplicatesWith eqFn s, p.1 ∉ allDups (getDuplicatesWith eqFn s) := by
  intro p hp hc
  unfold getDuplicatesWith at hp hc
  rw [List.mem_flatMap] at hp
  obtain ⟨k, hk, hp2⟩ := hp
  obtain ⟨q, hq, hcq⟩ := mem_allDups.mp hc
  rw [List.mem_flatMap] at hq
  obtain ⟨k2, hk2, hq2⟩ := hq
  by_cases hkk : k2 = k
  · subst hkk
    have := portionFold_disjoint (eqFn s.tags) (bucketsOfKind s k2) [] []
      (by simpa using bucketsOfKind_flatten_nodup s k2 hnd)
      (by intro q hq; cases hq) (by intro q hq; cases hq) p hp2
    exact this (mem_allDups.mpr ⟨q, hq2, hcq⟩)
  · have h1 := (dupPortion_kind eqFn s k p hp2).1
    have h2 := (dupPortion_kind eqFn s k2 q hq2).2.2 p.1 hcq
    exact hkk (h2 ▸ h1)

theorem closedState_iff (s : PState) : closedState s = true ↔ GoodHeap s.table [] s.tags := by
  unfold closedState GoodHeap GoodTag GoodRef
  rw [List.all_eq_true]
  constructor
  · intro hc x hx
    have := hc x hx
    rw [Bool.and_eq_true, List.all_eq_true, List.all_eq_true] at this
    constructor
    · intro a ha v hv
      have h2 := this.1 a ha
      rw [hv] at h2
      simp only [decide_eq_true_eq] at h2
      exact ⟨h2, List.not_mem_nil v⟩
    · intro a ha v hv
      have h2 := this.2 a ha
      rw [List.all_eq_true] at h2
      have h3 := h2 v hv
      simp only [decide_eq_true_eq] at h3
      exact ⟨h3, List.not_mem_nil v⟩
  · intro hg x hx
    obtain ⟨h1, h2⟩ := hg x hx
    rw [Bool.and_eq_true, List.all_eq_true, List.all_eq_true]
    constructor
    · intro a ha
      rcases hv : getSingle (s.tags x) a with _ | v
      · rfl
      · simpa using (h1 a ha v hv).1
    · intro a ha
      rw [List.all_eq_true]
      intro v hv
      simpa using (h2 a ha v hv).1

theorem GoodTag_mono {T D T2 D2 : List Nat} {t : Tag}
    (himp : ∀ v, GoodRef T D v → GoodRef T2 D2 v) :
    GoodTag T D t → GoodTag T2 D2 t := by
  rintro ⟨h1, h2⟩
  exact ⟨fun a ha v hv => himp v (h1 a ha v hv), fun a ha v hv => himp v (h2 a ha v hv)⟩

theorem rewriteTag_kind (dups : Dups) (t : Tag) : (rewriteTag dups t).kind = t.kind := by
  cases hk : t.kind <;> simp [rewriteTag, hk, singleAttrs, listAttrs,
    getSingle, setSingle, getListAttr, setListAttr]

theorem rewriteTag_hsh (dups : Dups) (t : Tag) : (rewriteTag dups t).hsh = t.hsh := by
  cases hk : t.kind <;> simp [rewriteTag, hk, singleAttrs, listAttrs,
    getSingle, setSingle, getListAttr, setListAttr]

theorem rewriteTag_getSingle (dups : Dups) (t : Tag) (a : RefAttr)
    (ha : a ∈ singleAttrs t.kind) :
    getSingle (rewriteTag dups t) a = (getSingle t a).map (rewriteVal dups) := by
  cases hk : t.kind <;> rw [hk] at ha <;>
    simp only [singleAttrs, List.mem_cons, List.not_mem_nil, or_false] at ha <;>
    first
    | (rcases ha with rfl | rfl | rfl <;>
        simp [rewriteTag, hk, singleAttrs, listAttrs, getSingle, setSingle,
          getListAttr, setListAttr])
    | (rcases ha with rfl | rfl <;>
        simp [rewriteTag, hk, singleAttrs, listAttrs, getSingle, setSingle,
          getListAttr, setListAttr])
    | (rcases ha with rfl <;>
        simp [rewriteTag, hk, singleAttrs, listAttrs, getSingle, setSingle,
          getListAttr, setListAttr])

theorem rewriteTag_getList (dups : Dups) (t : Tag) (a : RefAttr)
    (ha : a ∈ listAttrs t.kind) :
    getListAttr (rewriteTag dups t) a = (getListAttr t a).map (rewriteVal dups) := by
  cases hk : t.kind <;> rw [hk] at ha <;>
    simp only [listAttrs, List.mem_cons, List.not_mem_nil, or_false] at ha <;>
    first
    | (rcases ha with rfl | rfl | rfl <;>
        simp [rewriteTag, hk, singleAttrs, listAttrs, getSingle, setSingle,
          getListAttr, setListAttr])
    | (rcases ha with rfl | rfl <;>
        simp [rewriteTag, hk, singleAttrs, listAttrs, getSingle, setSingle,
          getListAttr, setListAttr])

theorem referrersAttr_mem_listAttrs (k : TagKind) : RefAttr.referrersAttr ∈ listAttrs k := by
  cases k <;> simp [listAttrs]

theorem GoodTag_typ {T D : List Nat} {t : Tag} {r : Nat} (hg : GoodTag T D t)
    (hr : GoodRef T D r) : GoodTag T D { t with typ := some r } := by
  obtain ⟨h1, h2⟩ := hg
  constructor
  · intro a ha v hv
    cases a
    case typAttr =>
      simp only [getSingle, Option.some.injEq] at hv
      exact hv ▸ hr
    all_goals exact h1 _ ha v hv
  · intro a ha v hv
    cases a <;> exact h2 _ ha v hv

theorem GoodTag_referrers {T D : List Nat} {t : Tag} {l : List Nat} (hg : GoodTag T D t)
    (hl : ∀ v ∈ l, GoodRef T D v) : GoodTag T D { t with referrers := l } := by
  obtain ⟨h1, h2⟩ := hg
  constructor
  · intro a ha v hv
    cases a <;> exact h1 _ ha v hv
  · intro a ha v hv
    cases a
    case referrersAttr => exact hl v hv
    all_goals exact h2 _ ha v hv

theorem GoodTag_typedefs {T D : List Nat} {t : Tag} {l : List Nat} (hg : GoodTag T D t)
    (hl : ∀ v ∈ l, GoodRef T D v) : GoodTag T D { t with typedefs := l } := by
  obtain ⟨h1, h2⟩ := hg
  constructor
  · intro a ha v hv
    cases a <;> exact h1 _ ha v hv
  · intro a ha v hv
    cases a
    case typedefsAttr => exact hl v hv
    all_goals exact h2 _ ha v hv

theorem GoodHeap_set {T D : List Nat} {h : Heap} {i : Nat} {t : Tag}
    (hg : GoodHeap T D h) (ht : i ∈ T → GoodTag T D t) : GoodHeap T D (setTag h i t) := by
  intro x hx
  unfold setTag
  by_cases hxi : x = i
  · rw [if_pos hxi]
    exact ht (hxi ▸ hx)
  · rw [if_neg hxi]
    exact hg x hx

theorem redirect_fold_good {T D : List Nat} (d r : Nat) (hr : GoodRef T D r) :
    ∀ (ls : List Nat) (h : Heap), GoodHeap T D h → (∀ x ∈ ls, GoodRef T D x) →
    GoodHeap T D (ls.foldl (redirectStep d r) h) := by
  intro ls
  induction ls with
  | nil => intro h hg _; exact hg
  | cons ref ls ih =>
    intro h hg hls
    rw [List.foldl_cons]
    refine ih _ ?_ (fun x hx => hls x (List.mem_cons_of_mem _ hx))
    unfold redirectStep
    split
    · refine GoodHeap_set (GoodHeap_set hg ?_) ?_
      · intro href
        exact GoodTag_typ (hg ref href) hr
      · intro hrT
        set h1 := setTag h ref { h ref with typ := some r } with hh1
        have hgh1 : GoodHeap T D h1 := GoodHeap_set hg (fun href => GoodTag_typ (hg ref href) hr)
        refine GoodTag_referrers (hgh1 r hrT) ?_
        intro v hv
        rcases List.mem_append.mp hv with h2 | h2
        · exact (hgh1 r hrT).2 .referrersAttr (referrersAttr_mem_listAttrs _) v h2
        · rw [List.mem_singleton.mp h2]
          exact hls ref (List.mem_cons_self _ _)
    · exact hg

theorem typedefsAttr_mem_listAttrs (k : TagKind) : RefAttr.typedefsAttr ∈ listAttrs k := by
  cases k <;> simp [listAttrs]

theorem deinit_good {T D : List Nat} (h : Heap) (d : Nat) (r : Option Nat)
    (hg : GoodHeap T D h) (hd : d ∈ T) (hr : ∀ x, r = some x → GoodRef T D x) :
    GoodHeap T D (deinit h d r) := by
  have step1 : ∀ (h1 : Heap), GoodHeap T D h1 →
      GoodHeap T D (if kindHasTyp (h1 d).kind then
        match (h1 d).typ with
        | some x => setTag h1 x { h1 x with referrers := removeAllOcc (h1 x).referrers d }
        | none => h1
      else h1) := by
    intro h1 hg1
    split
    · rcases htyp : (h1 d).typ with _ | x
      · exact hg1
      · refine GoodHeap_set hg1 ?_
        intro hxT
        refine GoodTag_referrers (hg1 x hxT) ?_
        intro v hv
        exact (hg1 x hxT).2 .referrersAttr (referrersAttr_mem_listAttrs _) v
          (List.mem_of_mem_filter hv)
    · exact hg1
  have step2 : ∀ (h2 : Heap), GoodHeap T D h2 →
      GoodHeap T D (if (h2 d).kind = .typeDefType then
        match (h2 d).typ with
        | some x => setTag h2 x { h2 x with typedefs := removeAllOcc (h2 x).typedefs d }
        | none => h2
      else h2) := by
    intro h2 hg2
    split
    · rcases htyp : (h2 d).typ with _ | x
      · exact hg2
      · refine GoodHeap_set hg2 ?_
        intro hxT
        refine GoodTag_typedefs (hg2 x hxT) ?_
        intro v hv
        exact (hg2 x hxT).2 .typedefsAttr (typedefsAttr_mem_listAttrs _) v
          (List.mem_of_mem_filter hv)
    · exact hg2
  rcases r with _ | r2
  · exact step2 _ (step1 _ hg)
  · exact step2 _ (step1 _ (redirect_fold_good d r2 (hr r2 rfl) _ h hg
      (fun x hx => (hg d hd).2 .referrersAttr (referrersAttr_mem_listAttrs _) x hx)))

theorem foldl_remove_tags (ds : List Nat) (r : Option Nat) :
    ∀ (s : PState), (ds.foldl (fun st d => removeTagExact st d r) s).tags =
      ds.foldl (fun hh d => deinit hh d r) s.tags := by
  induction ds with
  | nil => intro s; rfl
  | cons d ds ih =>
    intro s
    rw [List.foldl_cons, List.foldl_cons]
    exact ih _

theorem deinit_fold_good {T D : List Nat} (r : Option Nat)
    (hr : ∀ x, r = some x → GoodRef T D x) :
    ∀ (ds : List Nat) (h : Heap), GoodHeap T D h → (∀ d ∈ ds, d ∈ T) →
    GoodHeap T D (ds.foldl (fun hh d => deinit hh d r) h) := by
  intro ds
  induction ds with
  | nil => intro h hg _; exact hg
  | cons d ds ih =>
    intro h hg hds
    rw [List.foldl_cons]
    exact ih _ (deinit_good h d r hg (hds d (List.mem_cons_self _ _)) hr)
      (fun x hx => hds x (List.mem_cons_of_mem _ hx))

theorem rewriteVal_good (eqFn : Heap → Nat → Nat → Bool) (s : PState) (hnd : s.table.Nodup)
    {v0 : Nat} (hv0 : v0 ∈ s.table) :
    GoodRef s.table (allDups (getDuplicatesWith eqFn s))
      (rewriteVal (getDuplicatesWith eqFn s) v0) := by
  unfold rewriteVal dupOriginal
  rcases hfind : (getDuplicatesWith eqFn s).find? (fun p => v0 ∈ p.2) with _ | p
  · rw [hfind]
    refine ⟨hv0, ?_⟩
    intro hc
    obtain ⟨q, hq, hvq⟩ := mem_allDups.mp hc
    have := List.find?_eq_none.mp hfind q hq
    simp only [decide_eq_true_eq] at this
    exact this hvq
  · rw [hfind]
    have hp := List.mem_of_find?_eq_some hfind
    exact ⟨(getDuplicates_shape eqFn s p hp).1, getDuplicates_disjoint eqFn s hnd p hp⟩

theorem scanPhase_good (eqFn : Heap → Nat → Nat → Bool) (s : PState) (hnd : s.table.Nodup)
    (hc : closedState s = true) :
    GoodHeap s.table (allDups (getDuplicatesWith eqFn s))
      (scanPhase s (getDuplicatesWith eqFn s)).tags := by
  intro x hx
  show GoodTag s.table (allDups (getDuplicatesWith eqFn s))
    (if x ∈ s.table then rewriteTag (getDuplicatesWith eqFn s) (s.tags x) else s.tags x)
  rw [if_pos hx]
  have hgood := (closedState_iff s).mp hc x hx
  constructor
  · intro a ha v hv
    rw [rewriteTag_kind] at ha
    rw [rewriteTag_getSingle _ _ a ha] at hv
    rcases ho : getSingle (s.tags x) a with _ | v0
    · rw [ho] at hv
      cases hv
    · rw [ho] at hv
      simp only [Option.map_some'] at hv
      cases hv
      exact rewriteVal_good eqFn s hnd (hgood.1 a ha v0 ho).1
  · intro a ha v hv
    rw [rewriteTag_kind] at ha
    rw [rewriteTag_getList _ _ a ha] at hv
    obtain ⟨v0, hv0, rfl⟩ := List.mem_map.mp hv
    exact rewriteVal_good eqFn s hnd (hgood.2 a ha v0 hv0).1

theorem removeDuplicatesOnce_good (eqFn : Heap → Nat → Nat → Bool) (s : PState)
    (hnd : s.table.Nodup) (hc : closedState s = true) :
    closedState (removeDuplicatesOnce s (getDuplicatesWith eqFn s)) = true ∧
    (removeDuplicatesOnce s (getDuplicatesWith eqFn s)).table.Nodup := by
  have htags : GoodHeap s.table (allDups (getDuplicatesWith eqFn s))
      (removeDuplicatesOnce s (getDuplicatesWith eqFn s)).tags := by
    unfold removeDuplicatesOnce removePhase
    rw [foldl_remove_tags]
    refine deinit_fold_good _ ?_ _ _ (scanPhase_good eqFn s hnd hc) ?_
    · intro x hxeq
      have hmem : x ∈ (getDuplicatesWith eqFn s).map Prod.fst := getLast?_mem_list hxeq
      obtain ⟨p, hp, hpx⟩ := List.mem_map.mp hmem
      exact hpx ▸ ⟨(getDuplicates_shape eqFn s p hp).1, getDuplicates_disjoint eqFn s hnd p hp⟩
    · intro d hd
      obtain ⟨p, hp, hdp⟩ := mem_allDups.mp hd
      exact (getDuplicates_shape eqFn s p hp).2.2 d hdp
  have htable : (removeDuplicatesOnce s (getDuplicatesWith eqFn s)).table =
      (allDups (getDuplicatesWith eqFn s)).foldl
        (fun tb d => tb.filter (fun x => x ≠ d)) s.table := by
    unfold removeDuplicatesOnce removePhase
    rw [foldl_remove_table]
    rfl
  constructor
  · rw [closedState_iff]
    intro x hx
    rw [htable] at hx
    have hx2 := (mem_filter_fold _ _ _).mp hx
    refine GoodTag_mono ?_ (htags x hx2.1)
    intro v hv
    refine ⟨?_, List.not_mem_nil v⟩
    rw [htable]
    exact (mem_filter_fold _ _ _).mpr ⟨hv.1, hv.2⟩
  · rw [htable]
    exact List.Nodup.sublist (filter_fold_sublist _ _) hnd

theorem mem_bucketedTags {s : PState} {t : Nat} (ht : t ∈ bucketedTags s) : t ∈ s.table := by
  unfold bucketedTags at ht
  rw [List.mem_flatMap] at ht
  obtain ⟨k, _, ht2⟩ := ht
  rw [List.mem_flatMap] at ht2
  obtain ⟨b, hb, ht3⟩ := ht2
  exact (mem_bucketsOfKind hb t ht3).1

theorem is_tag_in_tag_list_of_mem {s : PState} {v : Nat} (hv : v ∈ s.table) :
    is_tag_in_tag_list s v = true := by
  unfold is_tag_in_tag_list
  rw [List.any_eq_true]
  exact ⟨v, mem_bucketOf_iff.mpr ⟨hv, rfl, rfl⟩, by simp⟩

theorem validate_of_closed (s : PState) (hc : closedState s = true) :
    validate_references s = [] := by
  unfold validate_references
  rw [List.flatMap_eq_nil_iff]
  intro t ht
  have htT := mem_bucketedTags ht
  have hgood := (closedState_iff s).mp hc t htT
  rw [List.append_eq_nil]
  constructor
  · rw [List.flatMap_eq_nil_iff]
    intro a ha
    rcases hv : getSingle (s.tags t) a with _ | v
    · rfl
    · simp [is_tag_in_tag_list_of_mem (hgood.1 a ha v hv).1]
  · rw [List.flatMap_eq_nil_iff]
    intro a ha
    rw [List.filterMap_eq_nil_iff]
    rintro ⟨v, idx⟩ hp
    have hv : v ∈ getListAttr (s.tags t) a := (List.of_mem_zip hp).1
    simp [is_tag_in_tag_list_of_mem (hgood.2 a ha v hv).1]

/-- C3, amended: restricted to the typed-reference attributes the engine
actually collects (`TYPED_ATTR_NAMES` of the strict base classes — see
`RefAttr`), deduplication preserves well-formedness: starting from a
duplicate-free-hash-bucketed table whose scanned references are all
table-resident (the state `_post_parse` produces after materialization and
declaration completion), every surviving entity's scanned reference is
present by identity after `_remove_duplicates`, and `_validate_references`
returns the empty list. -/
theorem dedup_validate_clean (eqFn : Heap → Nat → Nat → Bool) :
    ∀ (fuel : Nat) (s : PState) (dups : Dups),
      dups = getDuplicatesWith eqFn s → s.table.length < fuel →
      s.table.Nodup → closedState s = true →
      validate_references (removeDuplicates eqFn fuel s dups) = [] ∧
      closedState (removeDuplicates eqFn fuel s dups) = true := by
  intro fuel
  induction fuel with
  | zero => intro s dups _ hlen _ _; omega
  | succ fuel ih =>
    intro s dups hdups hlen hnd hc
    subst hdups
    show validate_references
        (if (getDuplicatesWith eqFn
              (removeDuplicatesOnce s (getDuplicatesWith eqFn s))).isEmpty
         then removeDuplicatesOnce s (getDuplicatesWith eqFn s)
         else removeDuplicates eqFn fuel (removeDuplicatesOnce s (getDuplicatesWith eqFn s))
           (getDuplicatesWith eqFn (removeDuplicatesOnce s (getDuplicatesWith eqFn s)))) = [] ∧
      closedState
        (if (getDuplicatesWith eqFn
              (removeDuplicatesOnce s (getDuplicatesWith eqFn s))).isEmpty
         then removeDuplicatesOnce s (getDuplicatesWith eqFn s)
         else removeDuplicates eqFn fuel (removeDuplicatesOnce s (getDuplicatesWith eqFn s))
           (getDuplicatesWith eqFn (removeDuplicatesOnce s (getDuplicatesWith eqFn s)))) = true
    obtain ⟨hc1, hnd1⟩ := removeDuplicatesOnce_good eqFn s hnd hc
    by_cases hemp : (getDuplicatesWith eqFn
        (removeDuplicatesOnce s (getDuplicatesWith eqFn s))).isEmpty = true
    · rw [if_pos hemp]
      exact ⟨validate_of_closed _ hc1, hc1⟩
    · rw [if_neg hemp]
      refine ih _ _ rfl ?_ hnd1 hc1
      by_cases hne : getDuplicatesWith eqFn s = []
      · exfalso
        apply hemp
        rw [hne, removeDuplicatesOnce_nil, hne]
        rfl
      · obtain ⟨p, hp⟩ := List.exists_mem_of_ne_nil _ hne
        obtain ⟨hp1, hp2ne, hpel⟩ := getDuplicates_shape eqFn s p hp
        obtain ⟨d0, hd0⟩ := List.exists_mem_of_ne_nil p.2 hp2ne
        have hd0dups : d0 ∈ allDups (getDuplicatesWith eqFn s) :=
          mem_allDups.mpr ⟨p, hp, hd0⟩
        have hd0tb : d0 ∈ s.table := hpel d0 hd0
        have htb : (removeDuplicatesOnce s (getDuplicatesWith eqFn s)).table =
            (allDups (getDuplicatesWith eqFn s)).foldl
              (fun tb d => tb.filter (fun x => x ≠ d)) s.table := by
          unfold removeDuplicatesOnce removePhase
          rw [foldl_remove_table]
          rfl
        have hsub := filter_fold_sublist (allDups (getDuplicatesWith eqFn s)) s.table
        have hlt : (removeDuplicatesOnce s (getDuplicatesWith eqFn s)).table.length
            < s.table.length := by
          rw [htb]
          rcases Nat.lt_or_ge
            ((allDups (getDuplicatesWith eqFn s)).foldl
              (fun tb d => tb.filter (fun x => x ≠ d)) s.table).length
            s.table.length with hcase | hcase
          · exact hcase
          · exfalso
            have heq := hsub.eq_of_length (le_antisymm hsub.length_le hcase)
            have hmem : d0 ∈ (allDups (getDuplicatesWith eqFn s)).foldl
                (fun tb d => tb.filter (fun x => x ≠ d)) s.table := by
              rw [heq]
              exact hd0tb
            exact ((mem_filter_fold _ _ _).mp hmem).2 hd0dups
        omega

/-- C1: evaluation of `_remove_duplicates` at the failing input.  The
formal parameter 12 is detected as a duplicate of 11 and removed from the
canonical table, but the surviving subroutine 14 still holds 12 in its
`parameters` typed-reference list: `SubroutineType.TYPED_ATTR_NAMES =
["parameters"]` is declared on the leaf class itself and
`_get_baseclasses_of_class` (used by the rewrite scan) collects the
attribute names of strict base classes only, so the field is never
rewritten to the original. -/
theorem dedup_misses_leaf_class_attrs :
    getDuplicatesWith eqByName paramDupState = [(11, [12])] ∧
    ((removeDuplicates eqByName 6 paramDupState
        (getDuplicatesWith eqByName paramDupState)).tags 14).elems = [12] ∧
    12 ∉ (removeDuplicates eqByName 6 paramDupState
        (getDuplicatesWith eqByName paramDupState)).table := by
  refine ⟨by decide, by decide, by decide⟩

/-- C3, counterexample: after the deduplication pass on `paramDupState`,
the surviving subroutine 14 holds the typed-reference field `parameters`
whose entry 12 is no longer present in the canonical table, yet
`_validate_references` still returns the empty list — the claim's
"for every typed-reference field ... the referenced entity is present by
identity" is false on the code (validation shares the scan's base-class
blind spot). -/
theorem validate_misses_dangling_parameters :
    ((removeDuplicates eqByName 6 paramDupState
        (getDuplicatesWith eqByName paramDupState)).tags 14).elems = [12] ∧
    12 ∉ (removeDuplicates eqByName 6 paramDupState
        (getDuplicatesWith eqByName paramDupState)).table ∧
    14 ∈ (removeDuplicates eqByName 6 paramDupState
        (getDuplicatesWith eqByName paramDupState)).table ∧
    validate_references (removeDuplicates eqByName 6 paramDupState
        (getDuplicatesWith eqByName paramDupState)) = [] := by
  refine ⟨by decide, by decide, by decide, by decide⟩

theorem dedup_validate_clean_witness :
    validate_references (removeDuplicates eqByName 3 dupState
      (getDuplicatesWith eqByName dupState)) = [] :=
  (dedup_validate_clean eqByName 3 dupState _ rfl (by decide) (by decide) (by decide)).1

/- ===================================================================
   C6 and C7
   =================================================================== -/

theorem updateFrom_c_eq (h : Heap) (c d : Nat) :
    ∃ rl : List Nat, (updateFrom h c d) c =
      { h c with
        name := if ((h c).name).isNone then (h d).name else (h c).name,
        size := if ((h c).size).isNone then (h d).size else (h c).size,
        bitSize := if ((h c).bitSize).isNone then (h d).bitSize else (h c).bitSize,
        alignment := if ((h c).alignment).isNone then (h d).alignment else (h c).alignment,
        accessibility := if ((h c).accessibility).isNone then (h d).accessibility else (h c).accessibility,
        typ := if ((h c).typ).isNone then (h d).typ else (h c).typ,
        containing := if ((h c).containing).isNone then (h d).containing else (h c).containing,
        spec := if ((h c).spec).isNone then (h d).spec else (h c).spec,
        nsRef := if ((h c).nsRef).isNone then (h d).nsRef else (h c).nsRef,
        encoding := if ((h c).encoding).isNone then (h d).encoding else (h c).encoding,
        endianity := if ((h c).endianity).isNone then (h d).endianity else (h c).endianity,
        bitOffset := if ((h c).bitOffset).isNone then (h d).bitOffset else (h c).bitOffset,
        mutableFlag := if ((h c).mutableFlag).isNone then (h d).mutableFlag else (h c).mutableFlag,
        dbo := if ((h c).dbo).isNone then (h d).dbo else (h c).dbo,
        prototyped := if ((h c).prototyped).isNone then (h d).prototyped else (h c).prototyped,
        constValue := if ((h c).constValue).isNone then (h d).constValue else (h c).constValue,
        defaultValue := if ((h c).defaultValue).isNone then (h d).defaultValue else (h c).defaultValue,
        isOptional := if ((h c).isOptional).isNone then (h d).isOptional else (h c).isOptional,
        variableParameter := if ((h c).variableParameter).isNone then (h d).variableParameter else (h c).variableParameter,
        referrers := rl } := by
  simp only [updateFrom]
  split
  · rename_i hcond
    rcases hdt : (h d).typ with _ | x
    · rw [hdt] at hcond
      simp at hcond
    · simp only [hdt]
      by_cases hcx : c = x
      · subst hcx
        refine ⟨(h c).referrers ++ [c], ?_⟩
        simp [setTag]
      · refine ⟨(h c).referrers, ?_⟩
        simp [setTag, hcx]
  · refine ⟨(h c).referrers, ?_⟩
    simp [setTag]

theorem updateFrom_other (h : Heap) (c d z : Nat) (hzc : z ≠ c)
    (hzx : ∀ x, (h d).typ = some x → z ≠ x) :
    (updateFrom h c d) z = h z := by
  simp only [updateFrom]
  split
  · rename_i hcond
    rcases hdt : (h d).typ with _ | x
    · rw [hdt] at hcond
      simp at hcond
    · simp only [hdt, setTag]
      rw [if_neg (hzx x hdt), if_neg hzc]
  · simp only [setTag]
    rw [if_neg hzc]

theorem updateFrom_typ_at (h : Heap) (c d z : Nat) :
    ((updateFrom h c d) z).typ =
      if z = c then (if ((h c).typ).isNone then (h d).typ else (h c).typ)
      else (h z).typ := by
  by_cases hzc : z = c
  · obtain ⟨rl, he⟩ := updateFrom_c_eq h c d
    rw [hzc, if_pos rfl, he]
  · rw [if_neg hzc]
    simp only [updateFrom]
    split
    · rename_i hcond
      rcases hdt : (h d).typ with _ | x
      · rw [hdt] at hcond
        simp at hcond
      · simp only [hdt, setTag]
        by_cases hzx : z = x
        · subst hzx
          simp [hzc]
        · simp [hzx, hzc]
    · simp only [setTag]
      rw [if_neg hzc]

theorem mem_completionCandidates {s : PState} {d c : Nat}
    (hc : c ∈ completionCandidates s d) : (s.tags c).declaration = false := by
  rcases hname : (s.tags d).name with _ | n
  · simp only [completionCandidates, hname] at hc
    simp at hc
  · simp only [completionCandidates, hname] at hc
    have h2 := (List.mem_filter.mp hc).2
    have h3 := of_decide_eq_true h2
    cases hdc : (s.tags c).declaration
    · rfl
    · exact absurd hdc h3.1

theorem updatePhase_inv (s : PState) (d : Nat)
    (hdt : ¬((s.tags d).typ = some d)) :
    ∀ (cs : List Nat) (st : PState),
      (∀ c ∈ cs, c ≠ d) →
      st.tags d = s.tags d →
      (∀ r, (s.tags r).typ = some d → (st.tags r).typ = some d) →
      ((cs.foldl (fun st c => resortTag { st with tags := updateFrom st.tags c d } c)
          st).tags d = s.tags d) ∧
      (∀ r, (s.tags r).typ = some d →
        (((cs.foldl (fun st c => resortTag { st with tags := updateFrom st.tags c d } c)
            st).tags r).typ = some d)) := by
  intro cs
  induction cs with
  | nil =>
    intro st _ hd hr
    exact ⟨hd, hr⟩
  | cons c cs ih =>
    intro st hcs hd hr
    rw [List.foldl_cons]
    refine ih _ (fun c2 hc2 => hcs c2 (List.mem_cons_of_mem _ hc2)) ?_ ?_
    · show (updateFrom st.tags c d) d = s.tags d
      rw [updateFrom_other st.tags c d d
        (fun hh => hcs c (List.mem_cons_self c cs) hh.symm)
        (fun x hx hdx => hdt (by rw [← hd, hx, hdx]))]
      exact hd
    · intro r hrd
      show ((updateFrom st.tags c d) r).typ = some d
      rw [updateFrom_typ_at]
      by_cases hrc : r = c
      · subst hrc
        have hstc := hr r hrd
        simp [hstc]
      · rw [if_neg hrc]
        exact hr r hrd

theorem redirectStep_typ (d c0 : Nat) (h : Heap) (ref r : Nat) :
    ((redirectStep d c0 h ref) r).typ =
      if r = ref ∧ (h ref).typ = some d then some c0 else (h r).typ := by
  by_cases hcond : (h ref).typ = some d
  · simp only [redirectStep, if_pos hcond]
    by_cases hrr : r = ref
    · rw [if_pos ⟨hrr, hcond⟩]
      subst hrr
      by_cases hrc : r = c0
      · subst hrc
        simp [setTag]
      · simp [setTag, hrc]
    · rw [if_neg (fun hand => hrr hand.1)]
      by_cases hrc : r = c0
      · subst hrc
        simp [setTag, hrr]
      · simp [setTag, hrr, hrc]
  · simp only [redirectStep, if_neg hcond]
    rw [if_neg (fun hand => hcond hand.2)]

theorem redirect_fold_typ (d c0 : Nat) :
    ∀ (ls : List Nat) (h : Heap) (r : Nat),
      (((h r).typ = some d ∧ r ∈ ls) ∨ (h r).typ = some c0) →
      ((ls.foldl (redirectStep d c0) h) r).typ = some c0 := by
  intro ls
  induction ls with
  | nil =>
    intro h r hcase
    rcases hcase with ⟨_, hmem⟩ | hc
    · cases hmem
    · exact hc
  | cons ref ls ih =>
    intro h r hcase
    rw [List.foldl_cons]
    apply ih
    rcases hcase with ⟨htyp, hmem⟩ | hc
    · by_cases hrr : r = ref
      · right
        rw [redirectStep_typ, if_pos ⟨hrr, by rw [← hrr]; exact htyp⟩]
      · left
        refine ⟨?_, ?_⟩
        · rw [redirectStep_typ, if_neg (fun hand => hrr hand.1)]
          exact htyp
        · rcases List.mem_cons.mp hmem with h1 | h1
          · exact absurd h1 hrr
          · exact h1
    · right
      rw [redirectStep_typ]
      by_cases hcond : r = ref ∧ (h ref).typ = some d
      · rw [if_pos hcond]
      · rw [if_neg hcond]
        exact hc

theorem deinit_typ_eq (h : Heap) (d r0 z : Nat) :
    ((deinit h d (some r0)) z).typ
      = (((h d).referrers.foldl (redirectStep d r0) h) z).typ := by
  have hstep1 : ∀ g : Heap,
      ((if kindHasTyp (g d).kind then
          match (g d).typ with
          | some x => setTag g x { g x with referrers := removeAllOcc (g x).referrers d }
          | none => g
        else g) z).typ = (g z).typ := by
    intro g
    split
    · rcases ht : (g d).typ with _ | x
      · simp [ht]
      · simp only [ht]
        by_cases hzx : z = x
        · subst hzx
          simp [setTag]
        · simp [setTag, hzx]
    · rfl
  have hstep2 : ∀ g : Heap,
      ((if (g d).kind = TagKind.typeDefType then
          match (g d).typ with
          | some x => setTag g x { g x with typedefs := removeAllOcc (g x).typedefs d }
          | none => g
        else g) z).typ = (g z).typ := by
    intro g
    split
    · rcases ht : (g d).typ with _ | x
      · simp [ht]
      · simp only [ht]
        by_cases hzx : z = x
        · subst hzx
          simp [setTag]
        · simp [setTag, hzx]
    · rfl
  exact (hstep2 _).trans (hstep1 _)

theorem processDecl_spec (s : PState) (d c0 : Nat)
    (hdecl : (s.tags d).declaration = true)
    (hdt : ¬((s.tags d).typ = some d))
    (hc0 : (completionCandidates s d).head? = some c0) :
    (processDecl s d).2 = true ∧
    d ∉ (processDecl s d).1.table ∧
    ∀ r ∈ (s.tags d).referrers, (s.tags r).typ = some d →
      ((processDecl s d).1.tags r).typ = some c0 := by
  rcases hcs : completionCandidates s d with _ | ⟨c0', tl⟩
  · rw [hcs] at hc0
    cases hc0
  · rw [hcs] at hc0
    have hc0' : c0' = c0 := by
      simp only [List.head?_cons, Option.some.injEq] at hc0
      exact hc0
    rw [hc0'] at hcs
    clear hc0' hc0
    rcases hname : (s.tags d).name with _ | n
    · exfalso
      simp only [completionCandidates, hname] at hcs
      simp at hcs
    · have hc0mem : c0 ∈ completionCandidates s d := by
        rw [hcs]
        exact List.mem_cons_self c0 tl
      have hc0decl : (s.tags c0).declaration = false := mem_completionCandidates hc0mem
      have hc0d : c0 ≠ d := by
        intro hh
        rw [hh, hdecl] at hc0decl
        cases hc0decl
      have hcand : ∀ c ∈ (c0 :: tl), c ≠ d := by
        intro c hcmem hh
        have hdf : (s.tags c).declaration = false := by
          apply mem_completionCandidates
          rw [hcs]
          exact hcmem
        rw [hh, hdecl] at hdf
        cases hdf
      have hproc : processDecl s d =
          (removeTagExact
            ((c0 :: tl).foldl
              (fun st c => resortTag { st with tags := updateFrom st.tags c d } c) s)
            d (some c0), true) := by
        simp only [processDecl, hname, hcs]
        rfl
      obtain ⟨hinv1, hinv2⟩ :=
        updatePhase_inv s d hdt (c0 :: tl) s hcand rfl (fun r hr => hr)
      refine ⟨by rw [hproc], ?_, ?_⟩
      · rw [hproc]
        simp [removeTagExact, List.mem_filter]
      · intro r hr htypr
        rw [hproc]
        simp only [removeTagExact]
        rw [deinit_typ_eq]
        refine redirect_fold_typ d c0 _ _ r (Or.inl ⟨hinv2 r htypr, ?_⟩)
        rw [hinv1]
        exact hr

/-- C7: declaration completion.  `Declarable.update_from` copies onto a
candidate exactly the attributes unset on it — an already-set candidate
attribute is never overwritten, an unset one receives the declaration's
value (first conjunct, both directions for every copied attribute); and
for a declaration with at least one candidate, the per-declaration step of
`_complete_declaration` reports completion, drops the declaration from the
canonical table, and redirects every referrer that still references the
declaration through its `type` field to the first candidate. -/
theorem declaration_completion_spec :
    (∀ (h : Heap) (c d : Nat),
      (∀ v, (h c).name = some v → ((updateFrom h c d) c).name = some v) ∧
      (∀ v, (h c).size = some v → ((updateFrom h c d) c).size = some v) ∧
      (∀ v, (h c).bitSize = some v → ((updateFrom h c d) c).bitSize = some v) ∧
      (∀ v, (h c).alignment = some v → ((updateFrom h c d) c).alignment = some v) ∧
      (∀ v, (h c).accessibility = some v → ((updateFrom h c d) c).accessibility = some v) ∧
      (∀ v, (h c).typ = some v → ((updateFrom h c d) c).typ = some v) ∧
      (∀ v, (h c).containing = some v → ((updateFrom h c d) c).containing = some v) ∧
      (∀ v, (h c).spec = some v → ((updateFrom h c d) c).spec = some v) ∧
      (∀ v, (h c).nsRef = some v → ((updateFrom h c d) c).nsRef = some v) ∧
      (∀ v, (h c).encoding = some v → ((updateFrom h c d) c).encoding = some v) ∧
      (∀ v, (h c).endianity = some v → ((updateFrom h c d) c).endianity = some v) ∧
      (∀ v, (h c).bitOffset = some v → ((updateFrom h c d) c).bitOffset = some v) ∧
      (∀ v, (h c).mutableFlag = some v → ((updateFrom h c d) c).mutableFlag = some v) ∧
      (∀ v, (h c).dbo = some v → ((updateFrom h c d) c).dbo = some v) ∧
      (∀ v, (h c).prototyped = some v → ((updateFrom h c d) c).prototyped = some v) ∧
      (∀ v, (h c).constValue = some v → ((updateFrom h c d) c).constValue = some v) ∧
      (∀ v, (h c).defaultValue = some v → ((updateFrom h c d) c).defaultValue = some v) ∧
      (∀ v, (h c).isOptional = some v → ((updateFrom h c d) c).isOptional = some v) ∧
      (∀ v, (h c).variableParameter = some v → ((updateFrom h c d) c).variableParameter = some v) ∧
      ((h c).name = none → ((updateFrom h c d) c).name = (h d).name) ∧
      ((h c).size = none → ((updateFrom h c d) c).size = (h d).size) ∧
      ((h c).bitSize = none → ((updateFrom h c d) c).bitSize = (h d).bitSize) ∧
      ((h c).alignment = none → ((updateFrom h c d) c).alignment = (h d).alignment) ∧
      ((h c).accessibility = none → ((updateFrom h c d) c).accessibility = (h d).accessibility) ∧
      ((h c).typ = none → ((updateFrom h c d) c).typ = (h d).typ) ∧
      ((h c).containing = none → ((updateFrom h c d) c).containing = (h d).containing) ∧
      ((h c).spec = none → ((updateFrom h c d) c).spec = (h d).spec) ∧
      ((h c).nsRef = none → ((updateFrom h c d) c).nsRef = (h d).nsRef) ∧
      ((h c).encoding = none → ((updateFrom h c d) c).encoding = (h d).encoding) ∧
      ((h c).endianity = none → ((updateFrom h c d) c).endianity = (h d).endianity) ∧
      ((h c).bitOffset = none → ((updateFrom h c d) c).bitOffset = (h d).bitOffset) ∧
      ((h c).mutableFlag = none → ((updateFrom h c d) c).mutableFlag = (h d).mutableFlag) ∧
      ((h c).dbo = none → ((updateFrom h c d) c).dbo = (h d).dbo) ∧
      ((h c).prototyped = none → ((updateFrom h c d) c).prototyped = (h d).prototyped) ∧
      ((h c).constValue = none → ((updateFrom h c d) c).constValue = (h d).constValue) ∧
      ((h c).defaultValue = none → ((updateFrom h c d) c).defaultValue = (h d).defaultValue) ∧
      ((h c).isOptional = none → ((updateFrom h c d) c).isOptional = (h d).isOptional) ∧
      ((h c).variableParameter = none → ((updateFrom h c d) c).variableParameter = (h d).variableParameter)) ∧
    (∀ (s : PState) (d c0 : Nat),
      (s.tags d).declaration = true →
      ¬((s.tags d).typ = some d) →
      (completionCandidates s d).head? = some c0 →
      (processDecl s d).2 = true ∧
      d ∉ (processDecl s d).1.table ∧
      ∀ r ∈ (s.tags d).referrers, (s.tags r).typ = some d →
        ((processDecl s d).1.tags r).typ = some c0) := by
  constructor
  · intro h c d
    obtain ⟨rl, he⟩ := updateFrom_c_eq h c d
    rw [he]
    refine ⟨?_, ?_, ?_, ?_, ?_, ?_, ?_, ?_, ?_, ?_, ?_, ?_, ?_, ?_, ?_, ?_, ?_, ?_, ?_, ?_, ?_, ?_, ?_, ?_, ?_, ?_, ?_, ?_, ?_, ?_, ?_, ?_, ?_, ?_, ?_, ?_, ?_, ?_⟩
    all_goals first
      | (intro v hv; simp [hv])
      | (intro hn; simp [hn])
  · intro s d c0 h1 h2 h3
    exact processDecl_spec s d c0 h1 h2 h3

theorem declaration_completion_spec_witness :
    (((updateFrom declTags 2 1) 2).name = some "s" ∧
     ((updateFrom declTags 2 1) 2).size = some 8 ∧
     (processDecl declState 1).2 = true ∧
     1 ∉ (processDecl declState 1).1.table ∧
     ((processDecl declState 1).1.tags 3).typ = some 2) ∧
    ((declTags 2).name = some "s" ∧
     (declTags 2).size = none ∧
     (declTags 1).declaration = true ∧
     ¬((declTags 1).typ = some 1) ∧
     (completionCandidates declState 1).head? = some 2 ∧
     3 ∈ (declTags 1).referrers ∧
     (declTags 3).typ = some 1) := by
  refine ⟨⟨?_, ?_, ?_, ?_, ?_⟩,
    by decide, by decide, by decide, by decide, by decide, by decide, by decide⟩
  · exact (declaration_completion_spec.1 declTags 2 1).1 "s" (by decide)
  · exact (declaration_completion_spec.1 declTags 2 1).2.2.2.2.2.2.2.2.2.2.2.2.2.2.2.2.2.2.2.2.1
      (by decide)
  · exact (declaration_completion_spec.2 declState 1 2 (by decide) (by decide) (by decide)).1
  · exact (declaration_completion_spec.2 declState 1 2 (by decide) (by decide) (by decide)).2.1
  · exact (declaration_completion_spec.2 declState 1 2 (by decide) (by decide)
      (by decide)).2.2 3 (by decide) (by decide)

set_option maxHeartbeats 2000000 in
/-- C6: `parse_DIE` memoizes by record offset and registers the fresh
entity before parsing its fields.  First conjunct: a memo hit returns the
memoized entity with the parser state unchanged — nothing is re-parsed.
Second conjunct: the self-referential aggregate (structure 0 with member 1
whose type is pointer 2 back to structure 0) parses to completion, the
member's type is the pointer and the pointer's pointee is *identically*
the entity id allocated for the structure, resolved through the memo while
the structure was still being parsed.  Third conjunct: a second
`parse_DIE` call on the resulting state returns the same state and the
same entity. -/
theorem parse_DIE_memoizes :
    (∀ (dw : Dwarf) (fuel : Nat) (st : ParseSt) (off t : Nat),
      lookupMemo st.memo off = some t →
      parse_DIE dw (fuel + 1) st off = some (st, t)) ∧
    ((parse_DIE selfRefDwarf 5 emptyParseSt 0).map
        (fun p => (p.2, (p.1.heap 0).kind, (p.1.heap 0).elems,
                   (p.1.heap 1).kind, (p.1.heap 1).typ,
                   (p.1.heap 2).kind, (p.1.heap 2).typ,
                   lookupMemo p.1.memo 0))
      = some (0, TagKind.structureType, [1],
              TagKind.memberTag, some 2,
              TagKind.pointerType, some 0, some 0)) ∧
    ((parse_DIE selfRefDwarf 5 emptyParseSt 0).bind
        (fun p => parse_DIE selfRefDwarf 5 p.1 0)
      = parse_DIE selfRefDwarf 5 emptyParseSt 0) := by
  refine ⟨?_, rfl, rfl⟩
  intro dw fuel st off t hmemo
  simp only [parse_DIE, hmemo]

theorem parse_DIE_memoizes_witness :
    lookupMemo ([(7, 4)] : List (Nat × Nat)) 7 = some 4 ∧
    parse_DIE selfRefDwarf 3 { memo := [(7, 4)], heap := fun _ => {}, next := 5 } 7
      = some ({ memo := [(7, 4)], heap := fun _ => {}, next := 5 }, 4) :=
  ⟨rfl, parse_DIE_memoizes.1 selfRefDwarf 2
    { memo := [(7, 4)], heap := fun _ => {}, next := 5 } 7 4 rfl⟩
